import Mathlib

/-!
# FileDust — verification of the spec against the source

Shallow embedding of the FileDust backup engine (content-defined chunker,
crypto envelope, manifest/pool data model, uploader and reconstructor) and
proofs settling the frozen claims.

Bytes are modelled as `List Nat` (JS `Buffer`).  External crypto libraries
(MD5, SHA-256, AES-256-GCM, base64) and the remote store are the program's
collaborators; they are modelled as parameters of the definitions, exactly at
the interface the source uses them, with their contracts (hash injectivity on
the relevant inputs, AEAD round-trip) as explicit hypotheses of the theorems.
-/

/-! ## Gear table (src/FastCDC.js lines 10-24)

The JS builds `GEAR_TABLE[i]` from an LCG seeded with 1337:
`state = (state * 6364136223846793005n + 1442695040888963407n) & 0xffffffffffffffffn`,
filling the table with successive outputs.  The table is a `BigInt64Array`
(signed), but every use of an entry is of the form `(h << 1n) + G[b]` followed
by `& 0xffffffffffffffffn`, and signed and unsigned readings of an entry agree
modulo `2^64`, so we model entries as naturals reduced mod `2^64`. -/

def lcgNext (s : Nat) : Nat :=
  (s * 6364136223846793005 + 1442695040888963407) % 2 ^ 64

/-- `gearTable b` is `GEAR_TABLE[b]`: the `(b+1)`-st output of the LCG. -/
def gearTable (b : Nat) : Nat := lcgNext^[b + 1] 1337

/-- One gear-hash update: `hash = ((hash << 1n) + GEAR_TABLE[byte]) & 2^64-1`
(src/FastCDC.js lines 95 and 108). -/
def gearStep (hash b : Nat) : Nat :=
  ((hash <<< 1) + gearTable b) % 2 ^ 64

/-! ## FastCDC configuration (src/FastCDC.js lines 29-51)

`maskBits = Math.floor(Math.log2(avgSize))`; `maskS = (1n << (maskBits+1)) - 1n`
and `maskL = (1n << (maskBits-1)) - 1n`.  A test `h & ((1 << n) - 1) === 0n`
is `h % 2^n = 0`, which is how the masks appear below.  For `avgSize = 1`
(`maskBits = 0`) JS evaluates `1n << -1n` as a right shift, giving
`maskL = -1n`, so the phase-2 test degenerates to `h = 0`; since the running
hash is kept below `2^64`, that is `h % 2^64 = 0`, whence the `64` branch. -/

structure FastCDCConfig where
  minSize : Nat
  avgSize : Nat
  maxSize : Nat
deriving DecidableEq

/-- `Math.floor(Math.log2 n)` (0 for `n = 0`, where JS would produce
`-Infinity` and the config constructor would throw on `BigInt(-Infinity)`;
that case is outside every theorem below).  Structurally recursive on a fuel
bounded by `n` so that it evaluates inside the kernel. -/
def log2floor : Nat → Nat → Nat
  | 0, _ => 0
  | fuel + 1, n => if 2 ≤ n then log2floor fuel (n / 2) + 1 else 0

def maskBitsOf (cfg : FastCDCConfig) : Nat := log2floor cfg.avgSize cfg.avgSize

def maskSBits (cfg : FastCDCConfig) : Nat := maskBitsOf cfg + 1

def maskLBits (cfg : FastCDCConfig) : Nat :=
  if maskBitsOf cfg = 0 then 64 else maskBitsOf cfg - 1

/-! ## getChunkSize (src/FastCDC.js lines 77-118)

The two `while` loops are embedded with an explicit fuel argument; phase 1 is
entered with fuel `min avgSize limit - minSize` and counter `i = minSize`, and
phase 2 with fuel `limit - i`, so the fuel runs out exactly when the loop
guard fails and the fuel-0 branch returns the same value the guard exit does:
the embedding computes precisely what the loops do. -/

def cdcPhase2 (cfg : FastCDCConfig) (data : List Nat) (offset limit : Nat) :
    Nat → Nat → Nat → Nat
  | 0, _, _ => limit
  | fuel + 1, i, hash =>
    if i < limit then
      let hash2 := gearStep hash (data.getD (offset + i) 0)
      if hash2 % 2 ^ maskLBits cfg = 0 then i
      else cdcPhase2 cfg data offset limit fuel (i + 1) hash2
    else limit

def cdcPhase1 (cfg : FastCDCConfig) (data : List Nat) (offset limit normal : Nat) :
    Nat → Nat → Nat → Nat
  | 0, i, hash => cdcPhase2 cfg data offset limit (limit - i) i hash
  | fuel + 1, i, hash =>
    if i < normal ∧ i < limit then
      let hash2 := gearStep hash (data.getD (offset + i) 0)
      if hash2 % 2 ^ maskSBits cfg = 0 then i
      else cdcPhase1 cfg data offset limit normal fuel (i + 1) hash2
    else cdcPhase2 cfg data offset limit (limit - i) i hash

def getChunkSize (cfg : FastCDCConfig) (data : List Nat) (offset remainingLen : Nat) : Nat :=
  if remainingLen ≤ cfg.minSize then remainingLen
  else
    cdcPhase1 cfg data offset (min cfg.maxSize remainingLen) cfg.avgSize
      (min cfg.avgSize (min cfg.maxSize remainingLen) - cfg.minSize) cfg.minSize 0

/-! ## chunk (src/FastCDC.js lines 63-75)

`chunk` pushes the running offset after each `getChunkSize` call and loops
`while (offset < len)`.  The loop is embedded with fuel; a run of the JS loop
that terminates makes at most `data.length` iterations only when every chunk
is nonempty, so `chunk` supplies fuel `data.length + 1` and an exhausted fuel
(`none`) reflects a run that cannot have terminated within that many
iterations — in particular a stuck loop (`getChunkSize = 0`) never
terminates, see `chunkF_stuck`. -/

def chunkF (cfg : FastCDCConfig) (data : List Nat) :
    Nat → Nat → List Nat → Option (List Nat)
  | 0, _, _ => none
  | fuel + 1, offset, acc =>
    if offset < data.length then
      let cl := getChunkSize cfg data offset (data.length - offset)
      chunkF cfg data fuel (offset + cl) (acc ++ [offset + cl])
    else some acc

def chunk (cfg : FastCDCConfig) (data : List Nat) : Option (List Nat) :=
  chunkF cfg data (data.length + 1) 0 []

/-- Boundary list to chunk sizes relative to a start offset:
`[b0 - start, b1 - b0, b2 - b1, ...]`. -/
def sizesFrom (start : Nat) (bs : List Nat) : List Nat :=
  bs.zipWith (fun b a => b - a) (start :: bs)

/-- Boundary list to chunk sizes: `[b0, b1 - b0, b2 - b1, ...]`. -/
def segSizes (bs : List Nat) : List Nat :=
  sizesFrom 0 bs

/-- The byte segments a boundary list carves out of `data`, starting at
`start`. -/
def segmentsFrom (data : List Nat) (start : Nat) (bs : List Nat) : List (List Nat) :=
  (bs.zip (start :: bs)).map (fun p => (data.drop p.2).take (p.1 - p.2))

def segments (data : List Nat) (bs : List Nat) : List (List Nat) :=
  segmentsFrom data 0 bs

/-! ## Crypto envelope (CryptoUtils, bundled in src/FileDustMerger.js)

`encrypt`/`decrypt` call Node's AES-256-GCM through `createCipheriv` /
`createDecipheriv`; the AEAD itself, the UTF-8 decoder, `JSON.parse` and
base64 are external libraries and appear as parameters: `aeadEnc key iv plain
= (ciphertext, authTag)` and `aeadDec key iv tag ciphertext` (`none` on tag
mismatch, the `decipher.final()` throw).  The envelope layout
`iv(12) || authTag(16) || ciphertext`, the key truncation, the length check
and the `autoJson` postprocessing are the code under verification. -/

deriving instance DecidableEq for Except

def IV_LENGTH : Nat := 12

/-- Key normalisation: a Buffer longer than 32 bytes is truncated with
`subarray(0, 32)` (both `encrypt` and `decrypt` do this). -/
def keyTrunc (key : List Nat) : List Nat :=
  if 32 < key.length then key.take 32 else key

/-- What `decrypt` returns: raw bytes (`autoJson: false`), a parsed JSON
value, or the UTF-8 text when parsing fails. -/
inductive DecOut (J : Type) where
  | bytes (b : List Nat)
  | json (v : J)
  | text (s : String)
deriving DecidableEq

inductive CryptoErr where
  | badEnvelope
  | authFailure
deriving DecidableEq

/-- The options bag of `decrypt`; only `options.autoJson === false` is ever
tested, so a missing key and any non-`false` value behave alike. -/
structure DecOptions where
  autoJson : Option Bool := none
deriving DecidableEq

/-- The on-wire form: a Buffer (`returnBuffer: true`) or a base64 string. -/
inductive CipherText where
  | buf (b : List Nat)
  | b64 (s : String)
deriving DecidableEq

section CryptoEnvelope

variable {J : Type}
variable (aeadEnc : List Nat → List Nat → List Nat → List Nat × List Nat)
variable (aeadDec : List Nat → List Nat → List Nat → List Nat → Option (List Nat))
variable (b64encode : List Nat → String)
variable (b64decode : String → List Nat)
variable (utf8 : List Nat → String)
variable (jsonParse : String → Option J)

/-- `encrypt(data, key, options)` (src/FileDustMerger.js bundled CryptoUtils):
truncate the key, draw a fresh 12-byte `iv` (passed here as the argument
standing for `crypto.randomBytes(IV_LENGTH)`), AEAD-encrypt, and pack
`iv || authTag || encrypted`, returned as a Buffer iff
`options.returnBuffer === true`, else base64. -/
def encrypt (data key iv : List Nat) (returnBuffer : Bool) : CipherText :=
  let keyBuf := keyTrunc key
  let encTag := aeadEnc keyBuf iv data
  let packed := iv ++ encTag.2 ++ encTag.1
  if returnBuffer = true then .buf packed else .b64 (b64encode packed)

/-- `decrypt(cipherText, key, options)`: truncate the key, base64-decode a
string input, reject envelopes of length `≤ IV_LENGTH + 16`, split
`iv / authTag / ciphertext` at fixed offsets, AEAD-decrypt (auth failure
throws), then: `autoJson === false` returns the raw Buffer; otherwise the
UTF-8 decoding is `JSON.parse`d, falling back to the text itself. -/
def decrypt (cipherText : CipherText) (key : List Nat) (options : DecOptions) :
    Except CryptoErr (DecOut J) :=
  let keyBuf := keyTrunc key
  let buf := match cipherText with
    | .buf b => b
    | .b64 s => b64decode s
  if buf.length ≤ IV_LENGTH + 16 then .error .badEnvelope
  else
    let iv := buf.take IV_LENGTH
    let authTag := (buf.drop IV_LENGTH).take 16
    let encrypted := buf.drop (IV_LENGTH + 16)
    match aeadDec keyBuf iv authTag encrypted with
    | none => .error .authFailure
    | some decrypted =>
      if options.autoJson = some false then .ok (.bytes decrypted)
      else
        match jsonParse (utf8 decrypted) with
        | some v => .ok (.json v)
        | none => .ok (.text (utf8 decrypted))

end CryptoEnvelope

/-! ## Manifest data model (src/FileDustSync.js)

`Hm` is the type of MD5 digests (`PH`/`CH`) and `S` of SHA-256 digests; both
hash functions are external libraries and appear as parameters where used.
Remote URLs are indices into the modelled store.  The pool is a JS object
keyed by `PH`: an association list in insertion order, assignment overwriting
an existing key in place. -/

inductive Status where
  | pending
  | completed
deriving DecidableEq

structure PoolEntry (Hm : Type) where
  hash : Hm
  url : Nat
deriving DecidableEq

structure Version (Hm S : Type) where
  version : Nat
  timestamp : String
  file_hash : S
  total_size : Nat
  status : Status
  chunks : List (Option Hm)
deriving DecidableEq

structure Manifest (Hm S : Type) where
  filename : String
  pool : List (Hm × PoolEntry Hm)
  versions : List (Version Hm S)
deriving DecidableEq

def poolFind {Hm : Type} [DecidableEq Hm] (pool : List (Hm × PoolEntry Hm))
    (h : Hm) : Option (PoolEntry Hm) :=
  (pool.find? (fun kv => decide (kv.1 = h))).map (fun kv => kv.2)

/-- JS `pool[ph] = entry`: overwrite in place when the key exists, otherwise
append the new binding. -/
def poolInsert {Hm : Type} [DecidableEq Hm] (pool : List (Hm × PoolEntry Hm))
    (h : Hm) (e : PoolEntry Hm) : List (Hm × PoolEntry Hm) :=
  if (poolFind pool h).isSome then
    pool.map (fun kv => if kv.1 = h then (h, e) else kv)
  else pool ++ [(h, e)]

/-- JS sparse-array assignment `arr[i] = v`: positions up to `i` that do not
exist yet become holes (`none`). -/
def setAt {α : Type} (l : List (Option α)) (i : Nat) (v : α) : List (Option α) :=
  if i < l.length then l.set i (some v)
  else l ++ List.replicate (i - l.length) none ++ [some v]

/-! ## Single-version manifests (src/FileDustUploader.js, src/FileDustMerger.js) -/

structure OldChunk (Hm : Type) where
  part : Nat
  name : String
  hash : Hm
  plain_hash : Hm
  url : Nat
deriving DecidableEq

structure OldManifest (Hm S : Type) where
  filename : String
  total_size : Nat
  file_hash : S
  chunks : List (OldChunk Hm)
deriving DecidableEq

/-- Stable insertion of a chunk behind all chunks with a part number not
above its own. -/
def insertByPart {Hm : Type} (c : OldChunk Hm) : List (OldChunk Hm) → List (OldChunk Hm)
  | [] => [c]
  | d :: rest => if c.part < d.part then c :: d :: rest else d :: insertByPart c rest

/-- `chunks.sort((a, b) => a.part - b.part)`: JS `Array.prototype.sort` is
stable, modelled by a stable insertion sort on `part`. -/
def sortByPart {Hm : Type} : List (OldChunk Hm) → List (OldChunk Hm)
  | [] => []
  | c :: rest => insertByPart c (sortByPart rest)

/-! ## Manifest saving (C4)

`saveManifest` in src/FileDustSync.js lines 123-126 is
`fs.writeFileSync(manifestName, JSON.stringify(manifest, null, 4))`, and in
src/FileDustUploader.js lines 72-78 it sorts `manifest.chunks` by `part` and
then calls the same `fs.writeFileSync(manifestName, ...)`.  A save is modelled
as the list of file-system operations it performs; `serialize` stands for
`JSON.stringify`. -/

inductive FsOp (D : Type) where
  | write (path : String) (content : D)
  | rename (src dst : String)
deriving DecidableEq

def saveManifestSync {Hm S D : Type} (serialize : Manifest Hm S → D)
    (manifestName : String) (manifest : Manifest Hm S) : List (FsOp D) :=
  [FsOp.write manifestName (serialize manifest)]

def saveManifestUploader {Hm S D : Type} (serializeOld : OldManifest Hm S → D)
    (manifestName : String) (manifest : OldManifest Hm S) :
    OldManifest Hm S × List (FsOp D) :=
  ({ manifest with chunks := sortByPart manifest.chunks },
    [FsOp.write manifestName
      (serializeOld { manifest with chunks := sortByPart manifest.chunks })])

/-! ## Resume decision on open (src/FileDustSync.js lines 89-121, C5)

After loading (and migrating) the manifest, `syncFileToDust` inspects only
the *last* version: same `file_hash` and `completed` means no-op; same
`file_hash` and `pending` means resume into it; otherwise a new `pending`
version is pushed.  `now` stands for `new Date().toISOString()`. -/

def newVersion {Hm S : Type} (num : Nat) (now : String) (fileHash : S)
    (fileSize : Nat) : Version Hm S :=
  ⟨num, now, fileHash, fileSize, Status.pending, []⟩

/-- The open decision: `none` = sync is a no-op (last version completed and
matching); `some (versions2, idx)` = proceed with version list `versions2`,
uploading into index `idx`. -/
def applyOpenDecision {Hm S : Type} [DecidableEq S] (versions : List (Version Hm S))
    (fileHash : S) (fileSize : Nat) (now : String) :
    Option (List (Version Hm S) × Nat) :=
  match versions.getLast? with
  | some lastVer =>
    if lastVer.file_hash = fileHash then
      if lastVer.status = Status.completed then none
      else some (versions, versions.length - 1)
    else
      some (versions ++ [newVersion (versions.length + 1) now fileHash fileSize],
        versions.length)
  | none =>
    some (versions ++ [newVersion (versions.length + 1) now fileHash fileSize],
      versions.length)

/-- The manifest invariant of the claim: every version except possibly the
last one is non-`pending` (hence at most one `pending`, and if present it is
the last). -/
def pendingOnlyLast {Hm S : Type} (versions : List (Version Hm S)) : Prop :=
  ∀ v ∈ versions.dropLast, v.status ≠ Status.pending

instance {Hm S : Type} (versions : List (Version Hm S)) :
    Decidable (pendingOnlyLast versions) :=
  inferInstanceAs (Decidable (∀ v ∈ versions.dropLast, v.status ≠ Status.pending))

/-! ## Finishing a sync run (src/FileDustSync.js lines 196-202, C6)

`await Promise.all(uploadTasks)` either resolves (all tasks succeeded) and
line 197 sets `status = "completed"` with the saveManifest of line 202
persisting it, or rejects with the error of a failed task, in which case the
exception propagates past the `finally` and neither line runs: the persisted
manifest is whatever the individual task saves left — the version still
`pending`.  `promiseAll` models `Promise.all` sequentially, surfacing the
first error in list order. -/

def promiseAll {E A : Type} : List (Except E A) → Except E (List A)
  | [] => Except.ok []
  | Except.error e :: _ => Except.error e
  | Except.ok a :: rest =>
    match promiseAll rest with
    | Except.ok others => Except.ok (a :: others)
    | Except.error e => Except.error e

def setVersionStatus {Hm S : Type} (versions : List (Version Hm S)) (idx : Nat)
    (st : Status) : List (Version Hm S) :=
  versions.enum.map (fun p => if p.1 = idx then { p.2 with status := st } else p.2)

/-- The tail of `syncFileToDust`: the first component is what the call
returns (the manifest path, or the propagated task error), the second the
version list the last manifest save persisted. -/
def syncFinish {Hm S E A : Type} (results : List (Except E A))
    (versions : List (Version Hm S)) (idx : Nat) (manifestName : String) :
    Except E String × List (Version Hm S) :=
  match promiseAll results with
  | Except.ok _ => (Except.ok manifestName, setVersionStatus versions idx Status.completed)
  | Except.error e => (Except.error e, versions)

/-! ## Remote store (src/unnamed/part_000, `uploadDataStream` / axios `get`)

The Arweave/Irys adapter is a collaborator: `put(blob) → url` returns an
immutable locator and `get(url) → blob` fetches it back.  The store is the
list of uploaded blobs; a URL is an index into it. -/

abbrev Store : Type := List (List Nat)

def storePut (store : Store) (blob : List Nat) : Nat × Store :=
  (store.length, store ++ [blob])

def storeGet (store : Store) (url : Nat) : Option (List Nat) :=
  store[url]?

/-- Observable side effects of a sync run, beyond its manifest/store result:
manifest saves, the scrypt key derivation, chunk encryptions and uploads. -/
inductive Eff where
  | save
  | keyDerive
  | encryptChunk
  | uploadChunk
deriving DecidableEq

section SyncModel

variable {Hm S : Type} [DecidableEq Hm] [DecidableEq S]
variable (md5 : List Nat → Hm)
variable (sha256 : List Nat → S)
variable (encryptC : List Nat → List Nat)
variable (decryptC : List Nat → Option (List Nat))

/-! ## The per-chunk upload step (src/FileDustSync.js lines 149-194, C7)

`encryptC` is `encrypt(·, key, {returnBuffer: true})` under the derived key
(nonce drawing folded in), `decryptC` is `decrypt(·, key, {autoJson: false})`
with `none` for an AEAD authentication failure. -/

/-- Branches 2 and 3 of the loop body: cross-version dedup
(`manifest.pool[plainHash]` hit: record the pointer and save) or fresh
encrypt–hash–upload–insert–record–save. -/
def stepUpload (pool : List (Hm × PoolEntry Hm)) (chunks : List (Option Hm))
    (partNum : Nat) (actualChunk : List Nat) (store : Store) :
    List (Hm × PoolEntry Hm) × List (Option Hm) × Store × List Eff :=
  if (poolFind pool (md5 actualChunk)).isSome then
    (pool, setAt chunks partNum (md5 actualChunk), store, [Eff.save])
  else
    (poolInsert pool (md5 actualChunk)
        ⟨md5 (encryptC actualChunk), (storePut store (encryptC actualChunk)).1⟩,
      setAt chunks partNum (md5 actualChunk),
      (storePut store (encryptC actualChunk)).2,
      [Eff.encryptChunk, Eff.uploadChunk, Eff.save])

/-- The full loop body: branch 1 (resume skip — `chunks[partNum]` already set
and present in the pool: do nothing) guarding `stepUpload`. -/
def stepSync (pool : List (Hm × PoolEntry Hm)) (chunks : List (Option Hm))
    (partNum : Nat) (actualChunk : List Nat) (store : Store) :
    List (Hm × PoolEntry Hm) × List (Option Hm) × Store × List Eff :=
  match chunks.getD partNum none with
  | some existingPlainHash =>
    if (poolFind pool existingPlainHash).isSome then (pool, chunks, store, [])
    else stepUpload md5 encryptC pool chunks partNum actualChunk store
  | none => stepUpload md5 encryptC pool chunks partNum actualChunk store

/-! ## The sequential read–chunk–upload loop (src/FileDustSync.js lines
137-195)

Each round reads `toRead = min(maxChunkSize, remaining)` bytes at
`fileOffset` into the window buffer, lets FastCDC pick `chunkLen` from that
window, and advances by `chunkLen`.  Fuel as in `chunk`; task concurrency is
modelled by running each task's effect at submission order (index assignment
is by position captured at submit time, so completion order does not affect
the resulting manifest). -/

def syncLoop (cfg : FastCDCConfig) (B : List Nat) :
    Nat → Nat → Nat →
    List (Hm × PoolEntry Hm) → List (Option Hm) → Store → List Eff →
    Option (List (Hm × PoolEntry Hm) × List (Option Hm) × Store × List Eff)
  | 0, _, _, _, _, _, _ => none
  | fuel + 1, fileOffset, partNum, pool, chunks, store, effs =>
    if fileOffset < B.length then
      if ((B.drop fileOffset).take (min cfg.maxSize (B.length - fileOffset))).length = 0 then
        some (pool, chunks, store, effs)
      else
        match stepSync md5 encryptC pool chunks partNum
          (((B.drop fileOffset).take (min cfg.maxSize (B.length - fileOffset))).take
            (getChunkSize cfg
              ((B.drop fileOffset).take (min cfg.maxSize (B.length - fileOffset))) 0
              ((B.drop fileOffset).take (min cfg.maxSize (B.length - fileOffset))).length))
          store with
        | (pool2, chunks2, store2, effs2) =>
          syncLoop cfg B fuel
            (fileOffset + getChunkSize cfg
              ((B.drop fileOffset).take (min cfg.maxSize (B.length - fileOffset))) 0
              ((B.drop fileOffset).take (min cfg.maxSize (B.length - fileOffset))).length)
            (partNum + 1) pool2 chunks2 store2 (effs ++ effs2)
    else some (pool, chunks, store, effs)

/-! ## Loading and migrating an existing manifest (src/FileDustSync.js lines
62-87)

A stored version's `chunks` may hold legacy descriptor objects
(`{part, hash, plain_hash, url}`), plain `PH` strings, or holes; migration
lifts descriptors into the pool and rewrites `chunks` to a pure `PH`
sequence (`newChunks[chunk.part ?? i] = chunk.plain_hash`). -/

inductive RawChunk (Hm : Type) where
  | legacy (part : Option Nat) (hash : Hm) (plain : Hm) (url : Nat)
  | phRef (ph : Hm)
deriving DecidableEq

structure RawVersion (Hm S : Type) where
  version : Nat
  timestamp : String
  file_hash : S
  total_size : Nat
  status : Status
  chunks : List (Option (RawChunk Hm))
deriving DecidableEq

/-- A parsed `.sync.dust` document; `none` fields are absent keys, which the
spread `{filename, pool: {}, versions: [], ...existingManifest}` plus the
`if (!manifest.pool)` / `if (!manifest.versions)` checks default. -/
structure RawManifest (Hm S : Type) where
  filename : Option String
  pool : Option (List (Hm × PoolEntry Hm))
  versions : Option (List (RawVersion Hm S))
deriving DecidableEq

def migrateChunksAux (pool : List (Hm × PoolEntry Hm)) (newChunks : List (Option Hm))
    (i : Nat) : List (Option (RawChunk Hm)) →
    List (Hm × PoolEntry Hm) × List (Option Hm)
  | [] => (pool, newChunks)
  | item :: rest =>
    match item with
    | some (RawChunk.legacy part hash plain url) =>
      migrateChunksAux (poolInsert pool plain ⟨hash, url⟩)
        (setAt newChunks (part.getD i) plain) (i + 1) rest
    | some (RawChunk.phRef ph) =>
      migrateChunksAux pool (setAt newChunks i ph) (i + 1) rest
    | none => migrateChunksAux pool newChunks (i + 1) rest

def migrateVersions (pool : List (Hm × PoolEntry Hm)) :
    List (RawVersion Hm S) →
    List (Hm × PoolEntry Hm) × List (Version Hm S)
  | [] => (pool, [])
  | rv :: rest =>
    match migrateChunksAux pool [] 0 rv.chunks with
    | (pool2, newChunks) =>
      match migrateVersions pool2 rest with
      | (pool3, vers) =>
        (pool3, ⟨rv.version, rv.timestamp, rv.file_hash, rv.total_size, rv.status,
          newChunks⟩ :: vers)

def migrateManifest (fileName : String) (raw : RawManifest Hm S) : Manifest Hm S :=
  match migrateVersions (raw.pool.getD []) (raw.versions.getD []) with
  | (pool2, vers) => ⟨raw.filename.getD fileName, pool2, vers⟩

/-- Updating `manifest.versions[idx]` in place at the end of a run. -/
def setVersionChunksStatus (versions : List (Version Hm S)) (idx : Nat)
    (chunks : List (Option Hm)) (st : Status) : List (Version Hm S) :=
  versions.enum.map (fun p =>
    if p.1 = idx then { p.2 with chunks := chunks, status := st } else p.2)

/-! ## syncFileToDust (src/FileDustSync.js lines 42-205)

The whole upload path on the success trace: hash the file, derive the CDC
config from `chunkSizeKB` (`max = KB*1024`, `avg = max/2`, `min = avg/4`),
load/migrate the manifest, apply the open decision (early return on a
matching completed last version — before the initial save and the key
derivation), then save, derive the key, run the loop, mark completed, save.
`now` stands for `new Date().toISOString()`.  Returns `none` only on fuel
exhaustion, which a configuration with `1 ≤ minChunkSize` never reaches. -/

/-- The run on an already loaded (and migrated) manifest `m0`. -/
def syncRun (m0 : Manifest Hm S) (B : List Nat) (fileName now : String)
    (chunkSizeKB : Nat) (store : Store) :
    Option (String × Manifest Hm S × Store × List Eff) :=
  match applyOpenDecision m0.versions (sha256 B) B.length now with
  | none => some (fileName ++ ".sync.dust", m0, store, [])
  | some (versions2, idx) =>
    Option.map (fun r =>
      (fileName ++ ".sync.dust",
        (⟨m0.filename, r.1,
          setVersionChunksStatus versions2 idx r.2.1 Status.completed⟩ : Manifest Hm S),
        r.2.2.1, r.2.2.2 ++ [Eff.save]))
      (syncLoop md5 encryptC
        ⟨chunkSizeKB * 1024 / 2 / 4, chunkSizeKB * 1024 / 2, chunkSizeKB * 1024⟩
        B (B.length + 1) 0 0 m0.pool
        ((versions2.getD idx ⟨0, "", sha256 B, 0, Status.pending, []⟩).chunks)
        store [Eff.save, Eff.keyDerive])

def syncModel (existing : Option (RawManifest Hm S)) (B : List Nat)
    (fileName : String) (now : String) (chunkSizeKB : Nat) (store : Store) :
    Option (String × Manifest Hm S × Store × List Eff) :=
  match existing with
  | none =>
    syncRun md5 sha256 encryptC (⟨fileName, [], []⟩ : Manifest Hm S) B fileName now
      chunkSizeKB store
  | some raw =>
    syncRun md5 sha256 encryptC (migrateManifest fileName raw) B fileName now
      chunkSizeKB store

end SyncModel

/-! ## Parallel-gather restore (src/FileDustSync.js lines 209-298)

`restoreFileSyncDust` selects a version, spawns one bounded-concurrency task
per chunk position, each task downloading, CH-checking (warn only),
decrypting and PH-checking (fatal) its chunk into slot `index`, then
concatenates the filled slots, writes the output and checks the final
SHA-256 (error log only).  Tasks are independent and write distinct slots,
so the concurrent gather is modelled index-sequentially. -/

inductive RWarn where
  | chMismatch (part : Nat)
  | statusPending (ver : Nat)
  | finalHashMismatch
deriving DecidableEq

inductive RErr where
  | noVersions
  | versionNotFound (n : Nat)
  | downloadFailed (part : Nat)
  | authFailure (part : Nat)
  | plainHashMismatch (part : Nat)
deriving DecidableEq

section RestoreModel

variable {Hm S : Type} [DecidableEq Hm] [DecidableEq S]
variable (md5 : List Nat → Hm)
variable (sha256 : List Nat → S)
variable (decryptC : List Nat → Option (List Nat))

/-- One restore task (lines 247-279): unset positions and positions absent
from the pool resolve immediately with an empty slot; otherwise download,
warn on ciphertext-digest mismatch, decrypt (`none` = AEAD failure, fatal),
and fail fatally when the plaintext digest misses `PH`. -/
def restoreChunk (pool : List (Hm × PoolEntry Hm)) (store : Store) (index : Nat)
    (oph : Option Hm) : Except RErr (Option (List Nat) × List RWarn) :=
  match oph with
  | none => Except.ok (none, [])
  | some plainHash =>
    match poolFind pool plainHash with
    | none => Except.ok (none, [])
    | some chunkInfo =>
      match storeGet store chunkInfo.url with
      | none => Except.error (RErr.downloadFailed index)
      | some buf =>
        match decryptC buf with
        | none => Except.error (RErr.authFailure index)
        | some decryptedChunk =>
          if md5 decryptedChunk ≠ plainHash then
            Except.error (RErr.plainHashMismatch index)
          else
            Except.ok (some decryptedChunk,
              if md5 buf ≠ chunkInfo.hash then [RWarn.chMismatch index] else [])

/-- All restore tasks in slot order, collecting slots and warnings; a task's
fatal error rejects the whole `Promise.all`. -/
def restoreSlots (pool : List (Hm × PoolEntry Hm)) (store : Store) :
    List (Option Hm) → Nat → Except RErr (List (Option (List Nat)) × List RWarn)
  | [], _ => Except.ok ([], [])
  | oph :: rest, index =>
    match restoreChunk md5 decryptC pool store index oph with
    | Except.error e => Except.error e
    | Except.ok (slot, w1) =>
      match restoreSlots pool store rest (index + 1) with
      | Except.error e => Except.error e
      | Except.ok (slots, w2) => Except.ok (slot :: slots, w1 ++ w2)

/-- `restoreFileSyncDust(manifestPath, targetVersion, password)`: version
selection (explicit number or latest), pending-status warning, the gather,
`Buffer.concat(downloadedBuffers.filter(b => b))`, the write, and the final
SHA-256 check (error-logged, output retained).  Returns the output filename,
its bytes, and the warnings logged. -/
def restoreModel (manifest : Manifest Hm S) (targetVersion : Option Nat)
    (store : Store) : Except RErr (String × List Nat × List RWarn) :=
  match manifest.versions.getLast? with
  | none => Except.error RErr.noVersions
  | some lastV =>
    match (match targetVersion with
      | some n =>
        match manifest.versions.find? (fun v => decide (v.version = n)) with
        | none => Except.error (RErr.versionNotFound n)
        | some v => Except.ok v
      | none => Except.ok lastV : Except RErr (Version Hm S)) with
    | Except.error e => Except.error e
    | Except.ok versionToRestore =>
      match restoreSlots md5 decryptC manifest.pool store versionToRestore.chunks 0 with
      | Except.error e => Except.error e
      | Except.ok (slots, warns) =>
        Except.ok ("restored_v" ++ toString versionToRestore.version ++ "_" ++
            manifest.filename,
          (slots.filterMap id).flatten,
          (if versionToRestore.status ≠ Status.completed then
            [RWarn.statusPending versionToRestore.version] else []) ++ warns ++
          (if sha256 ((slots.filterMap id).flatten) ≠ versionToRestore.file_hash then
            [RWarn.finalHashMismatch] else []))

end RestoreModel

/-! ## Strict-streaming restore (src/FileDustMerger.js lines 13-81, C3)

`downloadFromDust` walks the part-sorted chunk list sequentially; any error
inside the per-chunk `try` — download failure, the `throw` on
ciphertext-digest mismatch (lines 49-51), or an AEAD failure in `decrypt` —
is caught, the output handle closed, the temp file deleted, and the function
returns: the restore is aborted and cleaned up.  Only after every chunk is
appended is the temp file renamed onto the final name. -/

inductive DownloadOutcome where
  | restored (bytes : List Nat)
  | abortedCleanup
deriving DecidableEq

section StrictRestore

variable {Hm S : Type} [DecidableEq Hm]
variable (md5 : List Nat → Hm)
variable (decryptC : List Nat → Option (List Nat))

def downloadLoop (store : Store) :
    List (OldChunk Hm) → List Nat → DownloadOutcome
  | [], written => DownloadOutcome.restored written
  | c :: rest, written =>
    match storeGet store c.url with
    | none => DownloadOutcome.abortedCleanup
    | some netData =>
      if md5 netData ≠ c.hash then DownloadOutcome.abortedCleanup
      else
        match decryptC netData with
        | none => DownloadOutcome.abortedCleanup
        | some decryptedChunk => downloadLoop store rest (written ++ decryptedChunk)

def downloadFromDustModel (manifest : OldManifest Hm S) (store : Store) :
    DownloadOutcome :=
  downloadLoop md5 decryptC store (sortByPart manifest.chunks) []

end StrictRestore

/-- What one restore slot holds, relative to its manifest position: unset
positions and positions absent from the pool stay empty (silently skipped);
a position found in the pool holds its downloaded, decrypted, PH-verified
plaintext. -/
abbrev slotSpec {Hm : Type} [DecidableEq Hm] (md5 : List Nat → Hm)
    (decryptC : List Nat → Option (List Nat)) (pool : List (Hm × PoolEntry Hm))
    (store : Store) (oph : Option Hm) (slot : Option (List Nat)) : Prop :=
  (oph = none → slot = none) ∧
  (∀ ph, oph = some ph → poolFind pool ph = none → slot = none) ∧
  (∀ ph e, oph = some ph → poolFind pool ph = some e →
    ∃ p, slot = some p ∧ md5 p = ph ∧
      ∃ blob, storeGet store e.url = some blob ∧ decryptC blob = some p)

/-- The pool/store invariant a fresh sync run maintains: every pool entry's
URL resolves, in the store, to the encryption of a plaintext whose digest is
the entry's key. -/
def poolInv {Hm : Type} [DecidableEq Hm] (md5 : List Nat → Hm)
    (encryptC : List Nat → List Nat) (pool : List (Hm × PoolEntry Hm))
    (store : Store) : Prop :=
  ∀ ph e, poolFind pool ph = some e →
    ∃ p, md5 p = ph ∧ storeGet store e.url = some (encryptC p)

/-! ### The boundary lists `chunk` produces -/

/-- `BSpec cfg data offset bs`: `bs` is exactly the list of boundaries the
`while (offset < len)` loop of `FastCDC.chunk` pushes when started at
`offset`. -/
inductive BSpec (cfg : FastCDCConfig) (data : List Nat) : Nat → List Nat → Prop
  | done (offset : Nat) (h : data.length ≤ offset) : BSpec cfg data offset []
  | step (offset : Nat) (rest : List Nat) (h : offset < data.length)
      (hr : BSpec cfg data
        (offset + getChunkSize cfg data offset (data.length - offset)) rest) :
      BSpec cfg data offset
        ((offset + getChunkSize cfg data offset (data.length - offset)) :: rest)

/-! # Theorems -/

/-! ### Bounds for the phase loops -/

theorem cdcPhase2_le (cfg : FastCDCConfig) (data : List Nat) (offset limit : Nat) :
    ∀ fuel i hash, cdcPhase2 cfg data offset limit fuel i hash ≤ limit := by
  intro fuel
  induction fuel with
  | zero => intro i hash; simp [cdcPhase2]
  | succ n ih =>
    intro i hash
    simp only [cdcPhase2]
    split
    · split
      · omega
      · exact ih _ _
    · omega

theorem cdcPhase2_ge (cfg : FastCDCConfig) (data : List Nat) (offset limit : Nat) :
    ∀ fuel i hash, min i limit ≤ cdcPhase2 cfg data offset limit fuel i hash := by
  intro fuel
  induction fuel with
  | zero => intro i hash; simp [cdcPhase2]
  | succ n ih =>
    intro i hash
    simp only [cdcPhase2]
    split
    · split
      · omega
      · have := ih (i + 1) (gearStep hash (data.getD (offset + i) 0))
        omega
    · omega

theorem cdcPhase1_le (cfg : FastCDCConfig) (data : List Nat) (offset limit normal : Nat) :
    ∀ fuel i hash, cdcPhase1 cfg data offset limit normal fuel i hash ≤ limit := by
  intro fuel
  induction fuel with
  | zero => intro i hash; simpa [cdcPhase1] using cdcPhase2_le cfg data offset limit _ i hash
  | succ n ih =>
    intro i hash
    simp only [cdcPhase1]
    split
    · split
      · rename_i h _
        omega
      · exact ih _ _
    · exact cdcPhase2_le cfg data offset limit _ i hash

theorem cdcPhase1_ge (cfg : FastCDCConfig) (data : List Nat) (offset limit normal : Nat) :
    ∀ fuel i hash, min i limit ≤ cdcPhase1 cfg data offset limit normal fuel i hash := by
  intro fuel
  induction fuel with
  | zero => intro i hash; simpa [cdcPhase1] using cdcPhase2_ge cfg data offset limit _ i hash
  | succ n ih =>
    intro i hash
    simp only [cdcPhase1]
    split
    · split
      · omega
      · have := ih (i + 1) (gearStep hash (data.getD (offset + i) 0))
        omega
    · exact cdcPhase2_ge cfg data offset limit _ i hash

/-! ### Bounds for getChunkSize -/

theorem getChunkSize_le (cfg : FastCDCConfig) (data : List Nat) (offset R : Nat) :
    getChunkSize cfg data offset R ≤ R := by
  unfold getChunkSize
  split
  · omega
  · have h := cdcPhase1_le cfg data offset (min cfg.maxSize R) cfg.avgSize
      (min cfg.avgSize (min cfg.maxSize R) - cfg.minSize) cfg.minSize 0
    omega

theorem getChunkSize_le_max (cfg : FastCDCConfig) (data : List Nat) (offset R : Nat)
    (h1 : cfg.minSize ≤ cfg.avgSize) (h2 : cfg.avgSize ≤ cfg.maxSize) :
    getChunkSize cfg data offset R ≤ cfg.maxSize := by
  unfold getChunkSize
  split
  · omega
  · have h := cdcPhase1_le cfg data offset (min cfg.maxSize R) cfg.avgSize
      (min cfg.avgSize (min cfg.maxSize R) - cfg.minSize) cfg.minSize 0
    omega

theorem getChunkSize_min (cfg : FastCDCConfig) (data : List Nat) (offset R : Nat)
    (hmm : cfg.minSize ≤ cfg.maxSize) (hR : cfg.minSize < R) :
    cfg.minSize ≤ getChunkSize cfg data offset R := by
  unfold getChunkSize
  split
  · omega
  · have h := cdcPhase1_ge cfg data offset (min cfg.maxSize R) cfg.avgSize
      (min cfg.avgSize (min cfg.maxSize R) - cfg.minSize) cfg.minSize 0
    omega

theorem getChunkSize_pos (cfg : FastCDCConfig) (data : List Nat) (offset R : Nat)
    (h1 : 1 ≤ cfg.minSize) (hmm : cfg.minSize ≤ cfg.maxSize) (hR : 1 ≤ R) :
    1 ≤ getChunkSize cfg data offset R := by
  rcases le_or_lt R cfg.minSize with h | h
  · unfold getChunkSize
    simp [h, hR]
  · exact le_trans h1 (getChunkSize_min cfg data offset R hmm h)

theorem chunkF_sound (cfg : FastCDCConfig) (data : List Nat)
    (h1 : 1 ≤ cfg.minSize) (hmm : cfg.minSize ≤ cfg.maxSize) :
    ∀ fuel offset acc, offset ≤ data.length → data.length - offset < fuel →
      ∃ rest, chunkF cfg data fuel offset acc = some (acc ++ rest) ∧
        BSpec cfg data offset rest := by
  intro fuel
  induction fuel with
  | zero => intro offset acc _ hf; omega
  | succ n ih =>
    intro offset acc hoff hf
    by_cases hlt : offset < data.length
    · have hcl1 : 1 ≤ getChunkSize cfg data offset (data.length - offset) :=
        getChunkSize_pos cfg data offset _ h1 hmm (by omega)
      have hcl2 : getChunkSize cfg data offset (data.length - offset) ≤
          data.length - offset := getChunkSize_le cfg data offset _
      obtain ⟨rest, hrec, hspec⟩ := ih
        (offset + getChunkSize cfg data offset (data.length - offset))
        (acc ++ [offset + getChunkSize cfg data offset (data.length - offset)])
        (by omega) (by omega)
      refine ⟨(offset + getChunkSize cfg data offset (data.length - offset)) :: rest,
        ?_, BSpec.step offset rest hlt hspec⟩
      simp only [chunkF, if_pos hlt]
      rw [hrec, List.append_assoc]
      rfl
    · exact ⟨[], by simp [chunkF, hlt], BSpec.done offset (by omega)⟩

/-- If `getChunkSize` returns 0 at some reachable offset, the `chunk` loop is
stuck there: no amount of fuel makes the embedding terminate, reflecting the
nonterminating JS loop. -/
theorem chunkF_stuck (cfg : FastCDCConfig) (data : List Nat) (offset : Nat)
    (h : offset < data.length)
    (h0 : getChunkSize cfg data offset (data.length - offset) = 0) :
    ∀ fuel acc, chunkF cfg data fuel offset acc = none := by
  intro fuel
  induction fuel with
  | zero => intro acc; rfl
  | succ n ih =>
    intro acc
    simp only [chunkF, if_pos h, h0, Nat.add_zero]
    exact ih (acc ++ [offset])

theorem BSpec.chain (cfg : FastCDCConfig) (data : List Nat)
    (h1 : 1 ≤ cfg.minSize) (hmm : cfg.minSize ≤ cfg.maxSize)
    {offset : Nat} {bs : List Nat} (h : BSpec cfg data offset bs) :
    List.Chain' (· < ·) (offset :: bs) := by
  induction h with
  | done off _ => exact List.chain'_singleton off
  | step off rest hlt _ ih =>
    have hcl1 : 1 ≤ getChunkSize cfg data off (data.length - off) :=
      getChunkSize_pos cfg data off _ h1 hmm (by omega)
    exact List.chain'_cons.mpr ⟨by omega, ih⟩

theorem BSpec.join (cfg : FastCDCConfig) (data : List Nat)
    {offset : Nat} {bs : List Nat} (h : BSpec cfg data offset bs) :
    (segmentsFrom data offset bs).flatten = data.drop offset := by
  induction h with
  | done off hle =>
    simp [segmentsFrom, List.drop_eq_nil_of_le hle]
  | step off rest hlt hr ih =>
    have hcl2 : getChunkSize cfg data off (data.length - off) ≤
        data.length - off := getChunkSize_le cfg data off _
    simp only [segmentsFrom, List.zip_cons_cons, List.map_cons, List.flatten_cons] at ih ⊢
    rw [ih]
    have he : off + getChunkSize cfg data off (data.length - off) - off =
        getChunkSize cfg data off (data.length - off) := by omega
    rw [he]
    have hd : data.drop (off + getChunkSize cfg data off (data.length - off)) =
        (data.drop off).drop (getChunkSize cfg data off (data.length - off)) :=
      (List.drop_drop _ _ _).symm
    rw [hd]
    exact List.take_append_drop _ _

theorem BSpec.sizes (cfg : FastCDCConfig) (data : List Nat)
    (h2 : cfg.minSize ≤ cfg.avgSize) (h3 : cfg.avgSize ≤ cfg.maxSize)
    (h1 : 1 ≤ cfg.minSize)
    {offset : Nat} {bs : List Nat} (h : BSpec cfg data offset bs) :
    ∀ s ∈ sizesFrom offset bs, 1 ≤ s ∧ s ≤ cfg.maxSize := by
  induction h with
  | done off _ => simp [sizesFrom]
  | step off rest hlt _ ih =>
    intro s hs
    have hcl1 : 1 ≤ getChunkSize cfg data off (data.length - off) :=
      getChunkSize_pos cfg data off _ h1 (le_trans h2 h3) (by omega)
    have hclM : getChunkSize cfg data off (data.length - off) ≤ cfg.maxSize :=
      getChunkSize_le_max cfg data off _ h2 h3
    simp only [sizesFrom, List.zipWith_cons_cons] at hs
    rcases List.mem_cons.mp hs with rfl | hs2
    · constructor <;> omega
    · exact ih s hs2

theorem BSpec.sizes_min (cfg : FastCDCConfig) (data : List Nat)
    (hmm : cfg.minSize ≤ cfg.maxSize)
    {offset : Nat} {bs : List Nat} (h : BSpec cfg data offset bs) :
    ∀ s ∈ (sizesFrom offset bs).dropLast, cfg.minSize ≤ s := by
  induction h with
  | done off _ => simp [sizesFrom]
  | step off rest hlt hr ih =>
    intro s hs
    cases rest with
    | nil => simp [sizesFrom] at hs
    | cons b l =>
      simp only [sizesFrom, List.zipWith_cons_cons] at hs ih
      rw [List.dropLast_cons₂] at hs
      rcases List.mem_cons.mp hs with rfl | hs2
      · -- a non-final chunk: the next boundary is still inside the data,
        -- so the remaining length exceeded minSize and the cut is ≥ minSize
        have hlt2 : off + getChunkSize cfg data off (data.length - off) < data.length := by
          cases hr with
          | step _ _ hlt3 _ => exact hlt3
        have hRgt : cfg.minSize < data.length - off := by
          by_contra hc
          push_neg at hc
          have hone : getChunkSize cfg data off (data.length - off) = data.length - off := by
            unfold getChunkSize
            simp [hc]
          omega
        have := getChunkSize_min cfg data off (data.length - off) hmm hRgt
        omega
      · exact ih s hs2

theorem BSpec.last (cfg : FastCDCConfig) (data : List Nat)
    {offset : Nat} {bs : List Nat} (h : BSpec cfg data offset bs) :
    bs ≠ [] → bs.getLast? = some data.length := by
  induction h with
  | done off _ => intro hc; exact absurd rfl hc
  | step off rest hlt hr ih =>
    intro _
    have hcl2 : getChunkSize cfg data off (data.length - off) ≤
        data.length - off := getChunkSize_le cfg data off _
    cases rest with
    | nil =>
      cases hr with
      | done _ hle =>
        have he : off + getChunkSize cfg data off (data.length - off) = data.length := by
          omega
        simp [he]
    | cons b l =>
      rw [List.getLast?_cons_cons]
      exact ih (by simp)

/-- **C2** (amended: the configuration must additionally satisfy
`1 ≤ min_size`; see `C2_counterexample` for why the claim fails at
`min_size = 0`).  For every input buffer and configuration with
`1 ≤ min_size ≤ avg_size ≤ max_size`, `FastCDC.chunk` terminates and emits a
strictly increasing boundary list whose segments are non-overlapping, whose
concatenation equals the input, whose sizes all lie in `[1, max_size]` with
every non-final size at least `min_size` (only the final chunk may be
shorter), the last boundary is the input length, the empty input yields an
empty boundary list, and an input no longer than `min_size` yields a single
full-length chunk. -/
theorem C2_chunker_contract (cfg : FastCDCConfig) (data : List Nat)
    (h1 : 1 ≤ cfg.minSize) (h2 : cfg.minSize ≤ cfg.avgSize)
    (h3 : cfg.avgSize ≤ cfg.maxSize) :
    ∃ bs, chunk cfg data = some bs ∧
      List.Chain' (· < ·) (0 :: bs) ∧
      (segments data bs).flatten = data ∧
      (bs ≠ [] → bs.getLast? = some data.length) ∧
      (∀ s ∈ segSizes bs, 1 ≤ s ∧ s ≤ cfg.maxSize) ∧
      (∀ s ∈ (segSizes bs).dropLast, cfg.minSize ≤ s) ∧
      (data = [] → bs = []) ∧
      (1 ≤ data.length → data.length ≤ cfg.minSize → bs = [data.length]) := by
  have hmm : cfg.minSize ≤ cfg.maxSize := le_trans h2 h3
  obtain ⟨bs, hch, hspec⟩ :=
    chunkF_sound cfg data h1 hmm (data.length + 1) 0 [] (by omega) (by omega)
  refine ⟨bs, by simpa [chunk] using hch, hspec.chain cfg data h1 hmm, ?_,
    hspec.last cfg data, hspec.sizes cfg data h2 h3 h1, hspec.sizes_min cfg data hmm,
    ?_, ?_⟩
  · simpa [segments] using hspec.join cfg data
  · intro hdata
    cases hspec with
    | done _ _ => rfl
    | step _ _ hlt _ => subst hdata; simp at hlt
  · intro hlen hminlen
    cases hspec with
    | done _ hle => omega
    | step _ rest hlt hr =>
      have hcl : getChunkSize cfg data 0 (data.length - 0) = data.length := by
        unfold getChunkSize
        simp only [Nat.sub_zero]
        rw [if_pos hminlen]
      rw [hcl] at hr ⊢
      cases hr with
      | done _ _ => rw [Nat.zero_add]
      | step _ _ hlt2 _ => omega

/-- **C2** counterexample to the claim as stated: the claim quantifies over
every configuration with `min_size ≤ avg_size ≤ max_size`, which allows
`min_size = 0`.  With config `(0, 2, 2)` and the one-byte input `[0]`,
`GEAR_TABLE[0] & maskS = 0` (`maskS = 3`), so `getChunkSize` cuts at `i = 0`
and returns a zero-length chunk; `chunk`'s `while (offset < len)` loop then
never advances `offset` and never terminates (see `chunkF_stuck`), so no
chunk sequence concatenating to the input is ever emitted. -/
theorem C2_counterexample :
    getChunkSize ⟨0, 2, 2⟩ [0] 0 1 = 0 ∧ chunk ⟨0, 2, 2⟩ [0] = none := by
  constructor
  · decide
  · decide

/-- Witness for `C2_chunker_contract` at a concrete configuration and input. -/
theorem C2_witness :
    ∃ bs, chunk ⟨1, 2, 4⟩ [5, 6, 7, 8, 9] = some bs ∧
      List.Chain' (· < ·) (0 :: bs) ∧
      (segments [5, 6, 7, 8, 9] bs).flatten = [5, 6, 7, 8, 9] ∧
      (bs ≠ [] → bs.getLast? = some (List.length [5, 6, 7, 8, 9])) ∧
      (∀ s ∈ segSizes bs, 1 ≤ s ∧ s ≤ (4 : Nat)) ∧
      (∀ s ∈ (segSizes bs).dropLast, (1 : Nat) ≤ s) ∧
      (([5, 6, 7, 8, 9] : List Nat) = [] → bs = []) ∧
      (1 ≤ List.length [5, 6, 7, 8, 9] → List.length [5, 6, 7, 8, 9] ≤ 1 →
        bs = [List.length [5, 6, 7, 8, 9]]) :=
  C2_chunker_contract ⟨1, 2, 4⟩ [5, 6, 7, 8, 9] (by decide) (by decide) (by decide)

section CryptoEnvelopeFacts

variable {J : Type}
variable (aeadEnc : List Nat → List Nat → List Nat → List Nat × List Nat)
variable (aeadDec : List Nat → List Nat → List Nat → List Nat → Option (List Nat))
variable (b64encode : List Nat → String)
variable (b64decode : String → List Nat)
variable (utf8 : List Nat → String)
variable (jsonParse : String → Option J)

/-- Splitting the packed envelope back into its parts. -/
theorem envelope_split (iv tag ct : List Nat) (hiv : iv.length = IV_LENGTH)
    (htag : tag.length = 16) :
    (iv ++ tag ++ ct).take IV_LENGTH = iv ∧
    ((iv ++ tag ++ ct).drop IV_LENGTH).take 16 = tag ∧
    (iv ++ tag ++ ct).drop (IV_LENGTH + 16) = ct := by
  have h1 : (iv ++ (tag ++ ct)).take IV_LENGTH = iv := List.take_left' hiv
  have h2 : (iv ++ (tag ++ ct)).drop IV_LENGTH = tag ++ ct := List.drop_left' hiv
  refine ⟨by simpa using h1, ?_, ?_⟩
  · rw [List.append_assoc, h2]
    exact List.take_left' htag
  · rw [List.append_assoc, ← List.drop_drop, h2]
    exact List.drop_left' htag

/-- Behaviour of `decrypt` on a well-formed packed envelope, for any options:
`autoJson === false` yields the raw plaintext Buffer, anything else yields the
JSON-parse of the UTF-8 decoding, or the text itself when parsing fails. -/
theorem decrypt_packed (options : DecOptions) (data key iv : List Nat)
    (hiv : iv.length = IV_LENGTH)
    (htag : (aeadEnc (keyTrunc key) iv data).2.length = 16)
    (hct : (aeadEnc (keyTrunc key) iv data).1.length = data.length)
    (hrt : aeadDec (keyTrunc key) iv (aeadEnc (keyTrunc key) iv data).2
      (aeadEnc (keyTrunc key) iv data).1 = some data)
    (hne : data ≠ []) :
    decrypt (J := J) aeadDec b64decode utf8 jsonParse
        (.buf (iv ++ (aeadEnc (keyTrunc key) iv data).2 ++
          (aeadEnc (keyTrunc key) iv data).1)) key options =
      if options.autoJson = some false then .ok (.bytes data)
      else
        match jsonParse (utf8 data) with
        | some v => .ok (.json v)
        | none => .ok (.text (utf8 data)) := by
  obtain ⟨h1, h2, h3⟩ := envelope_split iv (aeadEnc (keyTrunc key) iv data).2
    (aeadEnc (keyTrunc key) iv data).1 hiv htag
  have hpos : 0 < data.length := List.length_pos.mpr hne
  have hlen : ¬((iv ++ (aeadEnc (keyTrunc key) iv data).2 ++
      (aeadEnc (keyTrunc key) iv data).1).length ≤ IV_LENGTH + 16) := by
    simp only [List.length_append, hiv, htag, hct, IV_LENGTH]
    omega
  simp only [decrypt, hlen, if_false, h1, h2, h3, hrt]

/-- **C10** (amended: the plaintext must be nonempty; see
`C10_counterexample` — an empty plaintext produces a 28-byte envelope that
`decrypt` rejects with its length check).  For every nonempty plaintext,
key and fresh nonce, under the AES-256-GCM round-trip contract:
`decrypt(encrypt(p, k), k)` returns the exact plaintext bytes when called
with `autoJson: false` (both for the Buffer and the base64 envelope form);
with any other options it returns the JSON-parse of the UTF-8 decoding when
that parses and the UTF-8 string otherwise, and never the raw bytes. -/
theorem C10_decrypt_encrypt_roundtrip (data key iv : List Nat)
    (hiv : iv.length = IV_LENGTH)
    (htag : (aeadEnc (keyTrunc key) iv data).2.length = 16)
    (hct : (aeadEnc (keyTrunc key) iv data).1.length = data.length)
    (hrt : aeadDec (keyTrunc key) iv (aeadEnc (keyTrunc key) iv data).2
      (aeadEnc (keyTrunc key) iv data).1 = some data)
    (hne : data ≠ []) :
    (decrypt (J := J) aeadDec b64decode utf8 jsonParse
        (encrypt aeadEnc b64encode data key iv true) key ⟨some false⟩ =
      .ok (.bytes data)) ∧
    (∀ options : DecOptions, options.autoJson ≠ some false →
      decrypt (J := J) aeadDec b64decode utf8 jsonParse
          (encrypt aeadEnc b64encode data key iv true) key options =
        (match jsonParse (utf8 data) with
          | some v => .ok (.json v)
          | none => .ok (.text (utf8 data))) ∧
      ∀ b, decrypt (J := J) aeadDec b64decode utf8 jsonParse
          (encrypt aeadEnc b64encode data key iv true) key options ≠
        .ok (.bytes b)) ∧
    (b64decode (b64encode (iv ++ (aeadEnc (keyTrunc key) iv data).2 ++
        (aeadEnc (keyTrunc key) iv data).1)) =
      iv ++ (aeadEnc (keyTrunc key) iv data).2 ++ (aeadEnc (keyTrunc key) iv data).1 →
      decrypt (J := J) aeadDec b64decode utf8 jsonParse
          (encrypt aeadEnc b64encode data key iv false) key ⟨some false⟩ =
        .ok (.bytes data)) := by
  have hbuf : encrypt aeadEnc b64encode data key iv true =
      .buf (iv ++ (aeadEnc (keyTrunc key) iv data).2 ++
        (aeadEnc (keyTrunc key) iv data).1) := by
    simp [encrypt]
  refine ⟨?_, ?_, ?_⟩
  · rw [hbuf, decrypt_packed aeadEnc aeadDec b64decode utf8 jsonParse ⟨some false⟩
      data key iv hiv htag hct hrt hne]
    rfl
  · intro options hopt
    have hd := decrypt_packed aeadEnc aeadDec b64decode utf8 jsonParse options
      data key iv hiv htag hct hrt hne
    rw [if_neg hopt] at hd
    rw [hbuf, hd]
    refine ⟨rfl, ?_⟩
    intro b
    cases hj : jsonParse (utf8 data) <;> simp [hj]
  · intro hb64
    have hd := decrypt_packed aeadEnc aeadDec b64decode utf8 jsonParse
      (⟨some false⟩ : DecOptions) data key iv hiv htag hct hrt hne
    have hbuf2 : encrypt aeadEnc b64encode data key iv false =
        .b64 (b64encode (iv ++ (aeadEnc (keyTrunc key) iv data).2 ++
          (aeadEnc (keyTrunc key) iv data).1)) := by
      simp [encrypt]
    rw [hbuf2]
    simp only [decrypt, hb64] at hd ⊢
    exact hd

end CryptoEnvelopeFacts

/-- **C10** counterexample to the claim as stated: it quantifies over every
plaintext, but for the empty plaintext the envelope is exactly
`12 + 16 + 0 = 28` bytes and `decrypt` throws its `length ≤ 28` check
(`cipherText 长度异常`) before ever reaching the AEAD, so no plaintext is
returned even with `autoJson: false`.  Instantiated with a length-preserving
model of the AEAD (AES-256-GCM ciphertexts have the plaintext's length). -/
theorem C10_counterexample :
    decrypt (J := Unit) (fun _ _ _ ct => some ct) (fun _ => []) (fun _ => "")
        (fun _ => none)
        (encrypt (fun _ _ p => (p, List.replicate 16 0)) (fun _ => "")
          [] [1] (List.replicate 12 0) true)
        [1] ⟨some false⟩ = .error .badEnvelope ∧
    decrypt (J := Unit) (fun _ _ _ ct => some ct) (fun _ => []) (fun _ => "")
        (fun _ => none)
        (encrypt (fun _ _ p => (p, List.replicate 16 0)) (fun _ => "")
          [] [1] (List.replicate 12 0) true)
        [1] ⟨some false⟩ ≠ .ok (.bytes []) := by
  constructor
  · decide
  · decide

/-- Witness for `C10_decrypt_encrypt_roundtrip` at concrete inputs. -/
theorem C10_witness :
    (decrypt (J := Unit) (fun _ _ _ ct => some ct) (fun s => s.data.map Char.toNat)
        (fun _ => "hi") (fun _ => none)
        (encrypt (fun _ _ p => (p, List.replicate 16 0))
          (fun l => String.mk (l.map Char.ofNat)) [104, 105] [1]
          (List.replicate 12 0) true) [1] ⟨some false⟩ =
      .ok (.bytes [104, 105])) ∧
    (∀ options : DecOptions, options.autoJson ≠ some false →
      decrypt (J := Unit) (fun _ _ _ ct => some ct) (fun s => s.data.map Char.toNat)
          (fun _ => "hi") (fun _ => none)
          (encrypt (fun _ _ p => (p, List.replicate 16 0))
            (fun l => String.mk (l.map Char.ofNat)) [104, 105] [1]
            (List.replicate 12 0) true) [1] options =
        (match (fun _ => (none : Option Unit)) ((fun _ => "hi") ([104, 105] : List Nat)) with
          | some v => .ok (.json v)
          | none => .ok (.text ((fun _ => "hi") ([104, 105] : List Nat)))) ∧
      ∀ b, decrypt (J := Unit) (fun _ _ _ ct => some ct) (fun s => s.data.map Char.toNat)
          (fun _ => "hi") (fun _ => none)
          (encrypt (fun _ _ p => (p, List.replicate 16 0))
            (fun l => String.mk (l.map Char.ofNat)) [104, 105] [1]
            (List.replicate 12 0) true) [1] options ≠
        .ok (.bytes b)) ∧
    ((fun s => s.data.map Char.toNat)
        ((fun l => String.mk (l.map Char.ofNat))
          (List.replicate 12 0 ++
            ((fun _ _ p => (p, List.replicate 16 0)) (keyTrunc [1]) (List.replicate 12 0)
              ([104, 105] : List Nat)).2 ++
            ((fun _ _ p => (p, List.replicate 16 0)) (keyTrunc [1]) (List.replicate 12 0)
              ([104, 105] : List Nat)).1)) =
      List.replicate 12 0 ++
        ((fun _ _ p => (p, List.replicate 16 0)) (keyTrunc [1]) (List.replicate 12 0)
          ([104, 105] : List Nat)).2 ++
        ((fun _ _ p => (p, List.replicate 16 0)) (keyTrunc [1]) (List.replicate 12 0)
          ([104, 105] : List Nat)).1 →
      decrypt (J := Unit) (fun _ _ _ ct => some ct) (fun s => s.data.map Char.toNat)
          (fun _ => "hi") (fun _ => none)
          (encrypt (fun _ _ p => (p, List.replicate 16 0))
            (fun l => String.mk (l.map Char.ofNat)) [104, 105] [1]
            (List.replicate 12 0) false) [1] ⟨some false⟩ =
        .ok (.bytes [104, 105])) :=
  C10_decrypt_encrypt_roundtrip (fun _ _ p => (p, List.replicate 16 0))
    (fun _ _ _ ct => some ct) (fun l => String.mk (l.map Char.ofNat))
    (fun s => s.data.map Char.toNat) (fun _ => "hi") (fun _ => none)
    [104, 105] [1] (List.replicate 12 0) (by decide) (by decide) (by decide)
    (by decide) (by decide)

/-- **C4** counterexample to the claim as stated: both `saveManifest`
functions issue exactly one file-system operation, a `writeFileSync` directly
to the manifest path — there is no temporary file and no rename.  An atomic
save as claimed would issue a write to some other (temporary) path followed
by a rename onto the target. -/
theorem C4_counterexample :
    saveManifestSync (fun _ => (0 : Nat)) "file.sync.dust"
        (⟨"file", [], []⟩ : Manifest Nat Nat) =
      [FsOp.write "file.sync.dust" 0] ∧
    (saveManifestUploader (fun _ => (0 : Nat)) "file.dust"
        (⟨"file", 0, 0, []⟩ : OldManifest Nat Nat)).2 =
      [FsOp.write "file.dust" 0] ∧
    ¬ (∃ tmpPath c, saveManifestSync (fun _ => (0 : Nat)) "file.sync.dust"
        (⟨"file", [], []⟩ : Manifest Nat Nat) =
        [FsOp.write tmpPath c, FsOp.rename tmpPath "file.sync.dust"]) := by
  refine ⟨rfl, rfl, ?_⟩
  rintro ⟨tmpPath, c, h⟩
  simp [saveManifestSync] at h

/-- **C4** (amended): every mutating manifest save performed by the
uploaders writes the entire serialized document directly to the manifest
path in place, as its only file-system operation; no temporary file is
written and no rename is performed (the versioned saver writes the manifest
as is, the single-version saver first sorts `chunks` by `part`). -/
theorem C4_save_writes_in_place {Hm S D : Type} (serialize : Manifest Hm S → D)
    (serializeOld : OldManifest Hm S → D) (fileName : String)
    (m : Manifest Hm S) (om : OldManifest Hm S) :
    saveManifestSync serialize (fileName ++ ".sync.dust") m =
      [FsOp.write (fileName ++ ".sync.dust") (serialize m)] ∧
    (saveManifestUploader serializeOld (fileName ++ ".dust") om).2 =
      [FsOp.write (fileName ++ ".dust")
        (serializeOld { om with chunks := sortByPart om.chunks })] :=
  ⟨rfl, rfl⟩

/-- **C5** counterexample to the claim as stated: a manifest whose single
version is `pending` with `file_hash = 0` satisfies the invariant, but
syncing a file whose hash is `1` appends a *second* `pending` version after
it (the code only compares against the last version's hash), leaving a
`pending` version that is not last. -/
theorem C5_counterexample :
    pendingOnlyLast ([⟨1, "t1", 0, 3, Status.pending, []⟩] : List (Version Nat Nat)) ∧
    applyOpenDecision ([⟨1, "t1", 0, 3, Status.pending, []⟩] : List (Version Nat Nat))
        1 4 "t2" =
      some ([⟨1, "t1", 0, 3, Status.pending, []⟩, ⟨2, "t2", 1, 4, Status.pending, []⟩], 1) ∧
    ¬ pendingOnlyLast
        ([⟨1, "t1", 0, 3, Status.pending, []⟩,
          ⟨2, "t2", 1, 4, Status.pending, []⟩] : List (Version Nat Nat)) := by
  refine ⟨by decide, by decide, by decide⟩

/-- **C5** (amended): the resume decision preserves the invariant "at most
one `pending` version, and it is the last" provided the manifest's last
version is `completed` or carries the current file's hash (in particular for
every manifest the uploader itself produced and left either completed or
pending on the same file).  Without that proviso the invariant is *not*
preserved: a last version that is `pending` with a different `file_hash`
gets a second `pending` version appended after it (`C5_counterexample`). -/
theorem C5_pending_invariant_preserved {Hm S : Type} [DecidableEq S]
    (versions : List (Version Hm S)) (fileHash : S) (fileSize : Nat) (now : String)
    (hinv : pendingOnlyLast versions)
    (hlast : ∀ lastVer ∈ versions.getLast?,
      lastVer.status = Status.completed ∨ lastVer.file_hash = fileHash) :
    ∀ vs2 idx, applyOpenDecision versions fileHash fileSize now = some (vs2, idx) →
      pendingOnlyLast vs2 := by
  intro vs2 idx h
  unfold applyOpenDecision at h
  cases hgl : versions.getLast? with
  | none =>
    have hnil : versions = [] := List.getLast?_eq_none_iff.mp hgl
    rw [hgl] at h
    replace h : some (versions ++ [newVersion (versions.length + 1) now fileHash fileSize],
        versions.length) = some (vs2, idx) := h
    subst hnil
    simp only [Option.some.injEq, Prod.mk.injEq] at h
    obtain ⟨h1, _⟩ := h
    subst h1
    intro v hv
    simp [newVersion] at hv
  | some lastVer =>
    rw [hgl] at h
    replace h : (if lastVer.file_hash = fileHash then
        if lastVer.status = Status.completed then none
        else some (versions, versions.length - 1)
      else some (versions ++ [newVersion (versions.length + 1) now fileHash fileSize],
        versions.length)) = some (vs2, idx) := h
    have hne : versions ≠ [] := by
      intro hc; subst hc; simp at hgl
    by_cases hh : lastVer.file_hash = fileHash
    · rw [if_pos hh] at h
      by_cases hc : lastVer.status = Status.completed
      · rw [if_pos hc] at h; exact absurd h (by simp)
      · rw [if_neg hc] at h
        simp only [Option.some.injEq, Prod.mk.injEq] at h
        obtain ⟨h1, _⟩ := h
        subst h1
        exact hinv
    · rw [if_neg hh] at h
      simp only [Option.some.injEq, Prod.mk.injEq] at h
      obtain ⟨h1, _⟩ := h
      subst h1
      have hcompl : lastVer.status = Status.completed := by
        rcases hlast lastVer (by rw [hgl]; rfl) with hc | hc
        · exact hc
        · exact absurd hc hh
      intro v hv
      rw [List.dropLast_concat] at hv
      have hsplit := List.dropLast_append_getLast hne
      have hv2 : v ∈ versions.dropLast ++ [versions.getLast hne] := by
        rw [hsplit]; exact hv
      rcases List.mem_append.mp hv2 with hv3 | hv3
      · exact hinv v hv3
      · have : v = versions.getLast hne := by simpa using hv3
        subst this
        rw [List.getLast?_eq_getLast versions hne] at hgl
        have : versions.getLast hne = lastVer := by
          injection hgl
        rw [this, hcompl]
        intro hcon
        exact absurd hcon.symm (by simp)

/-- Witness for `C5_pending_invariant_preserved`: a completed version with a
different hash gets a fresh pending version appended, and the invariant
still holds. -/
theorem C5_witness :
    pendingOnlyLast
      ([⟨1, "t1", 0, 3, Status.completed, []⟩,
        ⟨2, "t2", 5, 4, Status.pending, []⟩] : List (Version Nat Nat)) :=
  C5_pending_invariant_preserved
    [⟨1, "t1", 0, 3, Status.completed, []⟩] 5 4 "t2"
    (by decide) (by decide)
    [⟨1, "t1", 0, 3, Status.completed, []⟩, ⟨2, "t2", 5, 4, Status.pending, []⟩] 1
    (by decide)

theorem promiseAll_error_of_mem {E A : Type} (results : List (Except E A)) (e : E)
    (h : Except.error e ∈ results) : ∃ e2, promiseAll results = Except.error e2 := by
  induction results with
  | nil => simp at h
  | cons r rest ih =>
    cases r with
    | error e0 => exact ⟨e0, rfl⟩
    | ok a =>
      rcases List.mem_cons.mp h with hc | hmem
      · exact absurd hc (by simp)
      · obtain ⟨e2, he2⟩ := ih hmem
        refine ⟨e2, ?_⟩
        simp only [promiseAll, he2]

theorem promiseAll_ok_of_forall {E A : Type} (results : List (Except E A))
    (h : ∀ r ∈ results, ∃ a, r = Except.ok a) :
    ∃ vals, promiseAll results = Except.ok vals := by
  induction results with
  | nil => exact ⟨[], rfl⟩
  | cons r rest ih =>
    obtain ⟨a, ha⟩ := h r (by simp)
    subst ha
    obtain ⟨vals, hv⟩ := ih (fun r2 hr2 => h r2 (by simp [hr2]))
    refine ⟨a :: vals, ?_⟩
    simp only [promiseAll, hv]

/-- **C6**: if any upload task of a sync run fails terminally, the call
returns that failure and the persisted version list is untouched — the
current version's status remains `pending`; `status = completed` is set (and
saved) exactly when every task succeeds. -/
theorem C6_terminal_failure_leaves_pending {Hm S E A : Type}
    (results : List (Except E A)) (versions : List (Version Hm S)) (idx : Nat)
    (manifestName : String) :
    ((∃ e, Except.error e ∈ results) →
      (∃ e2, (syncFinish results versions idx manifestName).1 = Except.error e2) ∧
      (syncFinish results versions idx manifestName).2 = versions) ∧
    ((∀ r ∈ results, ∃ a, r = Except.ok a) →
      (syncFinish results versions idx manifestName).1 = Except.ok manifestName ∧
      (syncFinish results versions idx manifestName).2 =
        setVersionStatus versions idx Status.completed) := by
  constructor
  · rintro ⟨e, he⟩
    obtain ⟨e2, he2⟩ := promiseAll_error_of_mem results e he
    constructor
    · exact ⟨e2, by simp only [syncFinish, he2]⟩
    · simp only [syncFinish, he2]
  · intro hall
    obtain ⟨vals, hv⟩ := promiseAll_ok_of_forall results hall
    constructor
    · simp only [syncFinish, hv]
    · simp only [syncFinish, hv]

/-- Witness for `C6_terminal_failure_leaves_pending`: one failed task leaves
the pending version untouched and surfaces an error; an all-successful run
marks it completed. -/
theorem C6_witness :
    ((∃ e2, (syncFinish [Except.ok 1, Except.error 7]
        ([⟨1, "t", 0, 3, Status.pending, []⟩] : List (Version Nat Nat)) 0 "m").1 =
      Except.error e2) ∧
      (syncFinish [Except.ok 1, Except.error 7]
        ([⟨1, "t", 0, 3, Status.pending, []⟩] : List (Version Nat Nat)) 0 "m").2 =
      [⟨1, "t", 0, 3, Status.pending, []⟩]) ∧
    ((syncFinish ([Except.ok 1, Except.ok 2] : List (Except Nat Nat))
        ([⟨1, "t", 0, 3, Status.pending, []⟩] : List (Version Nat Nat)) 0 "m").1 =
      Except.ok "m" ∧
      (syncFinish ([Except.ok 1, Except.ok 2] : List (Except Nat Nat))
        ([⟨1, "t", 0, 3, Status.pending, []⟩] : List (Version Nat Nat)) 0 "m").2 =
      setVersionStatus [⟨1, "t", 0, 3, Status.pending, []⟩] 0 Status.completed) :=
  ⟨(C6_terminal_failure_leaves_pending [Except.ok 1, Except.error 7]
      [⟨1, "t", 0, 3, Status.pending, []⟩] 0 "m").1 ⟨7, by decide⟩,
    (C6_terminal_failure_leaves_pending ([Except.ok 1, Except.ok 2] : List (Except Nat Nat))
      [⟨1, "t", 0, 3, Status.pending, []⟩] 0 "m").2
      (by
        intro r hr
        rcases List.mem_cons.mp hr with rfl | hr2
        · exact ⟨1, rfl⟩
        · rcases List.mem_cons.mp hr2 with rfl | hr3
          · exact ⟨2, rfl⟩
          · simp at hr3)⟩

/-- **C7** counterexample to the claim as stated: the resume-skip branch
(lines 152-158) runs *before* the dedup branch.  At a position whose
`chunks[i]` is already set to a pool key, the uploader skips the chunk
entirely — no save is performed and `chunks[i]` is not (re)assigned — even
though the chunk's own `PH` is a key of the pool, contradicting "sets
`chunks[i] = PH` and saves the manifest".  Here `chunks[0] = 2` (a pool
key), while the chunk hashes to `PH = 1`, also a pool key; the step leaves
everything untouched and performs no effect at all. -/
theorem C7_counterexample :
    stepSync (fun l : List Nat => l.length) (fun l => l)
        [(1, ⟨0, 0⟩), (2, ⟨0, 1⟩)] [some 2] 0 [9] ([] : Store) =
      ([(1, ⟨0, 0⟩), (2, ⟨0, 1⟩)], [some 2], ([] : Store), []) ∧
    (poolFind [(1, (⟨0, 0⟩ : PoolEntry Nat)), (2, ⟨0, 1⟩)]
      ((fun l : List Nat => l.length) [9])).isSome = true ∧
    ([] : List Eff) ≠ [Eff.save] ∧
    ([some 2] : List (Option Nat)) ≠ setAt [some 2] 0 ((fun l : List Nat => l.length) [9]) := by
  refine ⟨by decide, by decide, by decide, by decide⟩

/-- **C7** (amended: restricted to chunk positions the resume-skip branch
does not claim first, i.e. positions whose `chunks[i]` is unset or set to a
hash absent from the pool).  For such a position whose plaintext digest is
already a pool key, the step records `chunks[i] = PH` and saves the
manifest, without encrypting, without uploading, and without adding or
modifying any pool entry or touching the store. -/
theorem C7_dedup_skip {Hm : Type} [DecidableEq Hm] (md5 : List Nat → Hm)
    (encryptC : List Nat → List Nat) (pool : List (Hm × PoolEntry Hm))
    (chunks : List (Option Hm)) (partNum : Nat) (actualChunk : List Nat)
    (store : Store)
    (hnoresume : ∀ ph, chunks.getD partNum none = some ph → poolFind pool ph = none)
    (hdedup : (poolFind pool (md5 actualChunk)).isSome = true) :
    stepSync md5 encryptC pool chunks partNum actualChunk store =
      (pool, setAt chunks partNum (md5 actualChunk), store, [Eff.save]) := by
  unfold stepSync
  cases hg : chunks.getD partNum none with
  | none =>
    show stepUpload md5 encryptC pool chunks partNum actualChunk store = _
    unfold stepUpload
    rw [if_pos hdedup]
  | some ph =>
    show (if (poolFind pool ph).isSome = true then (pool, chunks, store, [])
      else stepUpload md5 encryptC pool chunks partNum actualChunk store) = _
    rw [hnoresume ph hg]
    simp only [Option.isSome_none, Bool.false_eq_true, if_false]
    unfold stepUpload
    rw [if_pos hdedup]

/-- Witness for `C7_dedup_skip`: an unset position whose chunk digest is in
the pool gets recorded and saved with no other effect. -/
theorem C7_witness :
    stepSync (fun _ : List Nat => (5 : Nat)) (fun l => l) [(5, ⟨7, 0⟩)]
        [] 0 [1, 2] ([] : Store) =
      ([(5, ⟨7, 0⟩)], setAt [] 0 5, ([] : Store), [Eff.save]) :=
  C7_dedup_skip (fun _ => 5) (fun l => l) [(5, ⟨7, 0⟩)] [] 0 [1, 2] []
    (fun ph h => absurd h (by simp)) (by decide)

/-- The open decision is a no-op when the last version is completed with a
matching hash. -/
theorem applyOpenDecision_noop {Hm S : Type} [DecidableEq S]
    (versions : List (Version Hm S)) (fileHash : S) (fileSize : Nat) (now : String)
    (lastVer : Version Hm S) (hgl : versions.getLast? = some lastVer)
    (hh : lastVer.file_hash = fileHash) (hc : lastVer.status = Status.completed) :
    applyOpenDecision versions fileHash fileSize now = none := by
  unfold applyOpenDecision
  rw [hgl]
  show (if lastVer.file_hash = fileHash then
      if lastVer.status = Status.completed then none
      else some (versions, versions.length - 1)
    else some (versions ++ [newVersion (versions.length + 1) now fileHash fileSize],
      versions.length)) = none
  rw [if_pos hh, if_pos hc]

/-- **C8**: when the existing manifest's last version (after the
forward-compatibility migration, which does not touch `file_hash` or
`status`) is `completed` with `file_hash` equal to the SHA-256 of the current
file, `syncFileToDust` is a no-op: it returns the manifest path having
performed no save, no key derivation, no encryption and no upload, and the
remote store is untouched. -/
theorem C8_noop_on_matching_completed {Hm S : Type} [DecidableEq Hm] [DecidableEq S]
    (md5 : List Nat → Hm) (sha256 : List Nat → S) (encryptC : List Nat → List Nat)
    (raw : RawManifest Hm S) (B : List Nat) (fileName now : String)
    (chunkSizeKB : Nat) (store : Store) (lastVer : Version Hm S)
    (hgl : (migrateManifest fileName raw).versions.getLast? = some lastVer)
    (hh : lastVer.file_hash = sha256 B) (hc : lastVer.status = Status.completed) :
    syncModel md5 sha256 encryptC (some raw) B fileName now chunkSizeKB store =
      some (fileName ++ ".sync.dust", migrateManifest fileName raw, store, []) := by
  have hdec := applyOpenDecision_noop (migrateManifest fileName raw).versions
    (sha256 B) B.length now lastVer hgl hh hc
  unfold syncModel
  show syncRun md5 sha256 encryptC (migrateManifest fileName raw) B fileName now
    chunkSizeKB store = _
  unfold syncRun
  rw [hdec]

/-- Witness for `C8_noop_on_matching_completed` on a concrete manifest whose
single version is completed with the current file's hash. -/
theorem C8_witness :
    syncModel (fun l : List Nat => l.length) (fun l : List Nat => l) (fun l => l)
        (some (⟨some "f", some [],
          some [⟨1, "t", [1, 2], 2, Status.completed, []⟩]⟩ :
            RawManifest Nat (List Nat)))
        [1, 2] "f" "t2" 90 ([] : Store) =
      some ("f" ++ ".sync.dust",
        migrateManifest "f"
          (⟨some "f", some [], some [⟨1, "t", [1, 2], 2, Status.completed, []⟩]⟩ :
            RawManifest Nat (List Nat)),
        ([] : Store), []) :=
  C8_noop_on_matching_completed (fun l => l.length) (fun l => l) (fun l => l)
    ⟨some "f", some [], some [⟨1, "t", [1, 2], 2, Status.completed, []⟩]⟩
    [1, 2] "f" "t2" 90 [] ⟨1, "t", [1, 2], 2, Status.completed, []⟩
    (by decide) (by decide) (by decide)

/-- **C3** counterexample to the claim as stated: in the strict-streaming
mode, a downloaded envelope whose MD5 differs from the recorded `hash`
triggers the `throw` of src/FileDustMerger.js line 50, which the per-chunk
`catch` turns into close-handle / delete-temp-file / return — the restore is
aborted without decrypting.  Here the stored blob `[7]` decrypts fine
(`decryptC = some`), so the claimed warn-and-proceed behaviour would have
produced `restored [7]`; the code aborts instead. -/
theorem C3_counterexample :
    downloadFromDustModel (fun l : List Nat => l.length) (fun b => some b)
        (⟨"f", 1, 0, [⟨0, "p0", 99, 1, 0⟩]⟩ : OldManifest Nat Nat) [[7]] =
      DownloadOutcome.abortedCleanup ∧
    downloadFromDustModel (fun l : List Nat => l.length) (fun b => some b)
        (⟨"f", 1, 0, [⟨0, "p0", 99, 1, 0⟩]⟩ : OldManifest Nat Nat) [[7]] ≠
      DownloadOutcome.restored [7] := by
  refine ⟨by decide, by decide⟩

/-- **C3** (amended): the two restore modes treat a ciphertext-digest
mismatch differently.  In parallel-gather `restoreFileSyncDust`, the task
logs a warning and proceeds with decryption (succeeding when the AEAD and
the plaintext digest check pass).  In strict-streaming `downloadFromDust`,
the mismatch raises an error that aborts the whole restore with cleanup,
without ever decrypting — the outcome is `abortedCleanup` for every possible
decryption function. -/
theorem C3_ch_mismatch_behaviour {Hm : Type} [DecidableEq Hm]
    (md5 : List Nat → Hm) (decryptC : List Nat → Option (List Nat)) (store : Store)
    (c : OldChunk Hm) (rest : List (OldChunk Hm)) (written blob : List Nat)
    (hget : storeGet store c.url = some blob) (hmm1 : md5 blob ≠ c.hash)
    (pool : List (Hm × PoolEntry Hm)) (index : Nat) (ph : Hm) (e : PoolEntry Hm)
    (blob2 p : List Nat)
    (hfind : poolFind pool ph = some e) (hget2 : storeGet store e.url = some blob2)
    (hmm2 : md5 blob2 ≠ e.hash) (hdec : decryptC blob2 = some p) (hph : md5 p = ph) :
    (∀ dec : List Nat → Option (List Nat),
      downloadLoop md5 dec store (c :: rest) written = DownloadOutcome.abortedCleanup) ∧
    restoreChunk md5 decryptC pool store index (some ph) =
      Except.ok (some p, [RWarn.chMismatch index]) := by
  constructor
  · intro dec
    unfold downloadLoop
    rw [hget]
    simp only [ne_eq, hmm1, not_false_eq_true, if_true]
  · simp only [restoreChunk, hfind, hget2, hdec]
    simp [hph, hmm2]

/-- Witness for `C3_ch_mismatch_behaviour` at concrete inputs for both
modes. -/
theorem C3_witness :
    downloadLoop (fun l : List Nat => l.length) (fun b => some b) [[7], [8, 8]]
        [⟨0, "p0", 99, 1, 0⟩] [] = DownloadOutcome.abortedCleanup ∧
    restoreChunk (fun l : List Nat => l.length) (fun b => some b) [(2, ⟨99, 1⟩)]
        [[7], [8, 8]] 3 (some 2) = Except.ok (some [8, 8], [RWarn.chMismatch 3]) :=
  ⟨(C3_ch_mismatch_behaviour (fun l => l.length) (fun b => some b) [[7], [8, 8]]
      ⟨0, "p0", 99, 1, 0⟩ [] [] [7] (by decide) (by decide)
      [(2, ⟨99, 1⟩)] 3 2 ⟨99, 1⟩ [8, 8] [8, 8]
      (by decide) (by decide) (by decide) (by decide) (by decide)).1 (fun b => some b),
    (C3_ch_mismatch_behaviour (fun l => l.length) (fun b => some b) [[7], [8, 8]]
      ⟨0, "p0", 99, 1, 0⟩ [] [] [7] (by decide) (by decide)
      [(2, ⟨99, 1⟩)] 3 2 ⟨99, 1⟩ [8, 8] [8, 8]
      (by decide) (by decide) (by decide) (by decide) (by decide)).2⟩

/-- Behaviour of the restore gather on each slot: unset positions and
positions absent from the pool produce empty slots silently; positions whose
chunk downloads, decrypts and verifies produce filled slots. -/
theorem restoreSlots_spec {Hm : Type} [DecidableEq Hm]
    (md5 : List Nat → Hm) (decryptC : List Nat → Option (List Nat))
    (pool : List (Hm × PoolEntry Hm)) (store : Store)
    (chunks : List (Option Hm)) (index : Nat)
    (hfetch : ∀ ph e, some ph ∈ chunks → poolFind pool ph = some e →
      ∃ blob p, storeGet store e.url = some blob ∧ decryptC blob = some p ∧
        md5 p = ph) :
    ∃ slots warns,
      restoreSlots md5 decryptC pool store chunks index = Except.ok (slots, warns) ∧
      List.Forall₂ (slotSpec md5 decryptC pool store) chunks slots := by
  induction chunks generalizing index with
  | nil => exact ⟨[], [], rfl, List.Forall₂.nil⟩
  | cons oph rest ih =>
    obtain ⟨slots, warns, hrec, hrel⟩ := ih (index + 1)
      (fun ph e hmem hfind => hfetch ph e (by simp [hmem]) hfind)
    cases oph with
    | none =>
      refine ⟨none :: slots, warns, ?_, ?_⟩
      · simp only [restoreSlots, restoreChunk, hrec, List.nil_append]
      · exact List.Forall₂.cons
          ⟨fun _ => rfl, fun ph h => absurd h (by simp), fun ph e h => absurd h (by simp)⟩
          hrel
    | some ph =>
      cases hpf : poolFind pool ph with
      | none =>
        refine ⟨none :: slots, warns, ?_, ?_⟩
        · simp only [restoreSlots, restoreChunk, hpf, hrec, List.nil_append]
        · refine List.Forall₂.cons ⟨fun h => absurd h (by simp), fun _ _ _ => rfl, ?_⟩ hrel
          intro ph2 e2 h hf2
          have : ph2 = ph := by injection h.symm
          subst this
          rw [hpf] at hf2
          exact absurd hf2 (by simp)
      | some e =>
        obtain ⟨blob, p, hget, hdec, hmd5⟩ := hfetch ph e (by simp) hpf
        refine ⟨some p :: slots,
          (if md5 blob ≠ e.hash then [RWarn.chMismatch index] else []) ++ warns, ?_, ?_⟩
        · simp only [restoreSlots, restoreChunk, hpf, hget, hdec, hmd5, ne_eq,
            not_true_eq_false, if_false, hrec]
        · refine List.Forall₂.cons ⟨fun h => absurd h (by simp), ?_, ?_⟩ hrel
          · intro ph2 h hf2
            have : ph2 = ph := by injection h.symm
            subst this
            rw [hpf] at hf2
            exact absurd hf2 (by simp)
          · intro ph2 e2 h hf2
            have : ph2 = ph := by injection h.symm
            subst this
            rw [hpf] at hf2
            have : e2 = e := by injection hf2.symm
            subst this
            exact ⟨p, rfl, hmd5, blob, hget, hdec⟩

/-- **C9**: restoring a version whose `chunks` contain unset positions or
`PH` values absent from the pool silently skips those positions (they are
claimed by an immediately-resolved empty task): the restore completes
without error, and the written output is the concatenation of only the
successfully retrieved chunks — which can make it shorter than the
version's `total_size`. -/
theorem C9_restore_skips_missing {Hm S : Type} [DecidableEq Hm] [DecidableEq S]
    (md5 : List Nat → Hm) (sha256 : List Nat → S)
    (decryptC : List Nat → Option (List Nat))
    (manifest : Manifest Hm S) (store : Store) (v : Version Hm S)
    (hgl : manifest.versions.getLast? = some v)
    (hfetch : ∀ ph e, some ph ∈ v.chunks → poolFind manifest.pool ph = some e →
      ∃ blob p, storeGet store e.url = some blob ∧ decryptC blob = some p ∧
        md5 p = ph) :
    ∃ slots warns,
      restoreModel md5 sha256 decryptC manifest none store =
        Except.ok ("restored_v" ++ toString v.version ++ "_" ++ manifest.filename,
          (slots.filterMap id).flatten, warns) ∧
      List.Forall₂ (slotSpec md5 decryptC manifest.pool store) v.chunks slots := by
  obtain ⟨slots, warns, hs, hrel⟩ :=
    restoreSlots_spec md5 decryptC manifest.pool store v.chunks 0 hfetch
  refine ⟨slots,
    (if v.status ≠ Status.completed then [RWarn.statusPending v.version] else []) ++
      warns ++
      (if sha256 ((slots.filterMap id).flatten) ≠ v.file_hash then
        [RWarn.finalHashMismatch] else []), ?_, hrel⟩
  simp only [restoreModel, hgl, hs]

/-- Witness for `C9_restore_skips_missing`: of three chunk positions one is
retrievable, one is unset and one points outside the pool; the restore
succeeds and returns only the retrieved bytes, shorter than `total_size`. -/
theorem C9_witness :
    (∃ slots warns,
      restoreModel (fun l : List Nat => l.length) (fun _ : List Nat => (0 : Nat))
          (fun b => some b)
          (⟨"f", [(1, ⟨1, 0⟩)],
            [⟨1, "t", 0, 100, Status.completed, [some 1, none, some 5]⟩]⟩ :
            Manifest Nat Nat) none [[3]] =
        Except.ok ("restored_v" ++ toString (1 : Nat) ++ "_" ++ "f",
          (slots.filterMap id).flatten, warns) ∧
      List.Forall₂
        (slotSpec (fun l : List Nat => l.length) (fun b => some b) [(1, ⟨1, 0⟩)] [[3]])
        [some 1, none, some 5] slots) ∧
    restoreModel (fun l : List Nat => l.length) (fun _ : List Nat => (0 : Nat))
        (fun b => some b)
        (⟨"f", [(1, ⟨1, 0⟩)],
          [⟨1, "t", 0, 100, Status.completed, [some 1, none, some 5]⟩]⟩ :
          Manifest Nat Nat) none [[3]] =
      Except.ok ("restored_v1_f", [3], []) ∧
    List.length [3] < 100 :=
  ⟨C9_restore_skips_missing (fun l => l.length) (fun _ => 0) (fun b => some b)
      ⟨"f", [(1, ⟨1, 0⟩)], [⟨1, "t", 0, 100, Status.completed, [some 1, none, some 5]⟩]⟩
      [[3]] ⟨1, "t", 0, 100, Status.completed, [some 1, none, some 5]⟩
      (by decide)
      (by
        intro ph e hmem hfind
        simp only [List.mem_cons, List.not_mem_nil, or_false, Option.some.injEq,
          reduceCtorEq, false_or] at hmem
        rcases hmem with rfl | rfl
        · have he : e = ⟨1, 0⟩ := by
            have : poolFind [((1 : Nat), (⟨1, 0⟩ : PoolEntry Nat))] 1 = some ⟨1, 0⟩ := by
              decide
            rw [this] at hfind
            injection hfind.symm
          subst he
          exact ⟨[3], [3], rfl, rfl, rfl⟩
        · have : poolFind [((1 : Nat), (⟨1, 0⟩ : PoolEntry Nat))] 5 = none := by decide
          rw [this] at hfind
          exact absurd hfind (by simp)),
    by decide, by decide⟩

/-! ### Helper lemmas for the round-trip proof (C1) -/

theorem setAt_append {α : Type} (l : List (Option α)) (v : α) :
    setAt l l.length v = l ++ [some v] := by
  unfold setAt
  rw [if_neg (by omega)]
  simp

theorem storeGet_lt (store : Store) (url : Nat) (x : List Nat)
    (h : storeGet store url = some x) : url < store.length := by
  unfold storeGet at h
  obtain ⟨hlt, _⟩ := List.getElem?_eq_some_iff.mp h
  exact hlt

theorem storeGet_put_self (store : Store) (blob : List Nat) :
    storeGet (store ++ [blob]) store.length = some blob := by
  unfold storeGet
  exact List.getElem?_concat_length store blob

theorem storeGet_put_old (store : Store) (blob : List Nat) (url : Nat)
    (h : url < store.length) :
    storeGet (store ++ [blob]) url = storeGet store url := by
  unfold storeGet
  rw [List.getElem?_append, if_pos h]

theorem poolFind_append_some {Hm : Type} [DecidableEq Hm]
    (pool pool2 : List (Hm × PoolEntry Hm)) (h : Hm) (e : PoolEntry Hm)
    (hf : poolFind pool h = some e) : poolFind (pool ++ pool2) h = some e := by
  unfold poolFind at hf ⊢
  rw [List.find?_append]
  cases ho : pool.find? (fun kv => decide (kv.1 = h)) with
  | none => rw [ho] at hf; simp at hf
  | some kv =>
    rw [ho] at hf
    simp [Option.or, hf]

theorem poolFind_append_new {Hm : Type} [DecidableEq Hm]
    (pool : List (Hm × PoolEntry Hm)) (h k : Hm) (v : PoolEntry Hm)
    (hf : poolFind pool h = none) :
    poolFind (pool ++ [(k, v)]) h = if h = k then some v else none := by
  unfold poolFind at hf ⊢
  rw [List.find?_append]
  cases ho : pool.find? (fun kv => decide (kv.1 = h)) with
  | some kv => rw [ho] at hf; simp at hf
  | none =>
    by_cases hk : k = h
    · subst hk
      simp [Option.or, List.find?]
    · have hk2 : ¬(h = k) := fun hc => hk hc.symm
      simp [Option.or, List.find?, hk, hk2]

theorem poolInsert_of_absent {Hm : Type} [DecidableEq Hm]
    (pool : List (Hm × PoolEntry Hm)) (h : Hm) (e : PoolEntry Hm)
    (hf : poolFind pool h = none) : poolInsert pool h e = pool ++ [(h, e)] := by
  unfold poolInsert
  rw [hf]
  rfl

theorem filterMap_id_map_some {A : Type} (l : List A) :
    (l.map some).filterMap id = l := by
  induction l with
  | nil => rfl
  | cons a rest ih => simp [ih]

/-- Soundness of the read–chunk–upload loop on a fresh version: started
after processing the chunk list `ps` (covering `B.take fileOffset`), it
terminates within the supplied fuel, extends the recorded chunk pointers by
the digests of the remaining chunks `qs` with `(ps ++ qs).flatten = B`, and
maintains the pool/store invariant with every recorded digest present in the
pool. -/
theorem syncLoop_sound {Hm : Type} [DecidableEq Hm]
    (md5 : List Nat → Hm) (encryptC : List Nat → List Nat)
    (cfg : FastCDCConfig) (B : List Nat)
    (h1 : 1 ≤ cfg.minSize) (hms : cfg.minSize ≤ cfg.maxSize) :
    ∀ fuel fileOffset (ps : List (List Nat)) pool store effs,
      fileOffset ≤ B.length →
      B.length - fileOffset < fuel →
      ps.flatten = B.take fileOffset →
      poolInv md5 encryptC pool store →
      (∀ p ∈ ps, (poolFind pool (md5 p)).isSome = true) →
      ∃ qs pool2 store2 effs2,
        syncLoop md5 encryptC cfg B fuel fileOffset ps.length pool
          (ps.map (fun p => some (md5 p))) store effs =
          some (pool2, (ps ++ qs).map (fun p => some (md5 p)), store2, effs2) ∧
        (ps ++ qs).flatten = B ∧
        poolInv md5 encryptC pool2 store2 ∧
        (∀ p ∈ ps ++ qs, (poolFind pool2 (md5 p)).isSome = true) := by
  intro fuel
  induction fuel with
  | zero => intro fileOffset ps pool store effs hle hfuel _ _ _; omega
  | succ n ih =>
    intro fileOffset ps pool store effs hle hfuel hflat hinv hcomp
    by_cases hlt : fileOffset < B.length
    case neg =>
      refine ⟨[], pool, store, effs, ?_, ?_, hinv, by simpa using hcomp⟩
      · simp only [syncLoop, if_neg hlt, List.append_nil]
      · have hoe : fileOffset = B.length := by omega
        subst hoe
        simpa using hflat
    case pos =>
      have hwlen : ((B.drop fileOffset).take
          (min cfg.maxSize (B.length - fileOffset))).length =
          min cfg.maxSize (B.length - fileOffset) := by
        rw [List.length_take, List.length_drop]
        omega
      have hw0 : ¬(((B.drop fileOffset).take
          (min cfg.maxSize (B.length - fileOffset))).length = 0) := by
        rw [hwlen]
        omega
      have hcl1 : 1 ≤ getChunkSize cfg
          ((B.drop fileOffset).take (min cfg.maxSize (B.length - fileOffset))) 0
          ((B.drop fileOffset).take (min cfg.maxSize (B.length - fileOffset))).length :=
        getChunkSize_pos cfg _ 0 _ h1 hms (by omega)
      have hcl2 : getChunkSize cfg
          ((B.drop fileOffset).take (min cfg.maxSize (B.length - fileOffset))) 0
          ((B.drop fileOffset).take (min cfg.maxSize (B.length - fileOffset))).length ≤
          ((B.drop fileOffset).take (min cfg.maxSize (B.length - fileOffset))).length :=
        getChunkSize_le cfg _ 0 _
      -- abbreviate the cut length and the emitted chunk
      generalize hcl : getChunkSize cfg
          ((B.drop fileOffset).take (min cfg.maxSize (B.length - fileOffset))) 0
          ((B.drop fileOffset).take (min cfg.maxSize (B.length - fileOffset))).length =
        cl at hcl1 hcl2
      rw [hwlen] at hcl2
      have hactual : ((B.drop fileOffset).take
          (min cfg.maxSize (B.length - fileOffset))).take cl =
          (B.drop fileOffset).take cl := by
        rw [List.take_take]
        congr 1
        omega
      have hflat2 : (ps ++ [(B.drop fileOffset).take cl]).flatten =
          B.take (fileOffset + cl) := by
        rw [List.flatten_append, hflat, List.take_add]
        simp
      have hgd : (ps.map (fun p => some (md5 p))).getD ps.length none = none :=
        List.getD_eq_default _ _ (by simp)
      have hstep : stepSync md5 encryptC pool (ps.map (fun p => some (md5 p)))
          ps.length ((B.drop fileOffset).take cl) store =
          stepUpload md5 encryptC pool (ps.map (fun p => some (md5 p)))
            ps.length ((B.drop fileOffset).take cl) store := by
        unfold stepSync
        rw [hgd]
      have hsa : setAt (ps.map (fun p => some (md5 p))) ps.length
          (md5 ((B.drop fileOffset).take cl)) =
          (ps ++ [(B.drop fileOffset).take cl]).map (fun p => some (md5 p)) := by
        have hlen : ps.length = (ps.map (fun p => some (md5 p))).length := by simp
        rw [hlen, setAt_append]
        simp
      by_cases hpf : (poolFind pool (md5 ((B.drop fileOffset).take cl))).isSome = true
      · -- dedup hit: record the pointer, save, nothing else changes
        have hup : stepUpload md5 encryptC pool (ps.map (fun p => some (md5 p)))
            ps.length ((B.drop fileOffset).take cl) store =
            (pool, (ps ++ [(B.drop fileOffset).take cl]).map (fun p => some (md5 p)),
              store, [Eff.save]) := by
          unfold stepUpload
          rw [if_pos hpf, hsa]
        obtain ⟨qs, pool2, store2, effs2, hloop, hflat3, hinv2, hcomp2⟩ :=
          ih (fileOffset + cl) (ps ++ [(B.drop fileOffset).take cl]) pool store
            (effs ++ [Eff.save]) (by omega) (by omega) hflat2 hinv
            (by
              intro p hp
              rcases List.mem_append.mp hp with hp2 | hp2
              · exact hcomp p hp2
              · have hpe : p = (B.drop fileOffset).take cl := by simpa using hp2
                subst hpe
                exact hpf)
        refine ⟨(B.drop fileOffset).take cl :: qs, pool2, store2, effs2, ?_, ?_, hinv2, ?_⟩
        · conv_lhs => rw [syncLoop]
          rw [if_pos hlt, if_neg hw0, hcl, hactual, hstep, hup]
          simp only [List.length_append, List.length_singleton, List.append_assoc,
            List.singleton_append] at hloop
          exact hloop
        · simpa only [List.append_assoc, List.singleton_append] using hflat3
        · intro p hp
          apply hcomp2
          simpa only [List.append_assoc, List.singleton_append] using hp
      · -- fresh upload: encrypt, put, insert, record, save
        have hpfn : poolFind pool (md5 ((B.drop fileOffset).take cl)) = none := by
          cases ho : poolFind pool (md5 ((B.drop fileOffset).take cl)) with
          | none => rfl
          | some e => rw [ho] at hpf; simp at hpf
        have hup : stepUpload md5 encryptC pool (ps.map (fun p => some (md5 p)))
            ps.length ((B.drop fileOffset).take cl) store =
            (pool ++ [(md5 ((B.drop fileOffset).take cl),
                ⟨md5 (encryptC ((B.drop fileOffset).take cl)), store.length⟩)],
              (ps ++ [(B.drop fileOffset).take cl]).map (fun p => some (md5 p)),
              store ++ [encryptC ((B.drop fileOffset).take cl)],
              [Eff.encryptChunk, Eff.uploadChunk, Eff.save]) := by
          unfold stepUpload
          rw [if_neg hpf, hsa,
            poolInsert_of_absent pool (md5 ((B.drop fileOffset).take cl)) _ hpfn]
          rfl
        have hinv2 : poolInv md5 encryptC
            (pool ++ [(md5 ((B.drop fileOffset).take cl),
              ⟨md5 (encryptC ((B.drop fileOffset).take cl)), store.length⟩)])
            (store ++ [encryptC ((B.drop fileOffset).take cl)]) := by
          intro ph2 e2 hf2
          cases ho : poolFind pool ph2 with
          | some e0 =>
            rw [poolFind_append_some pool _ ph2 e0 ho] at hf2
            have he : e0 = e2 := by injection hf2
            subst he
            obtain ⟨p, hmd, hget⟩ := hinv ph2 e0 ho
            exact ⟨p, hmd, by
              rw [storeGet_put_old _ _ _ (storeGet_lt store _ _ hget)]
              exact hget⟩
          | none =>
            rw [poolFind_append_new pool ph2 _ _ ho] at hf2
            by_cases hpe : ph2 = md5 ((B.drop fileOffset).take cl)
            · rw [if_pos hpe] at hf2
              have he : (⟨md5 (encryptC ((B.drop fileOffset).take cl)),
                  store.length⟩ : PoolEntry Hm) = e2 := by injection hf2
              subst he
              exact ⟨(B.drop fileOffset).take cl, hpe.symm, storeGet_put_self store _⟩
            · rw [if_neg hpe] at hf2
              exact absurd hf2 (by simp)
        have hcompstep : ∀ p ∈ ps ++ [(B.drop fileOffset).take cl],
            (poolFind (pool ++ [(md5 ((B.drop fileOffset).take cl),
              ⟨md5 (encryptC ((B.drop fileOffset).take cl)), store.length⟩)])
              (md5 p)).isSome = true := by
          intro p hp
          rcases List.mem_append.mp hp with hp2 | hp2
          · obtain ⟨e0, he0⟩ := Option.isSome_iff_exists.mp (hcomp p hp2)
            rw [poolFind_append_some pool _ (md5 p) e0 he0]
            rfl
          · have hpe : p = (B.drop fileOffset).take cl := by simpa using hp2
            subst hpe
            rw [poolFind_append_new pool _ _ _ hpfn, if_pos rfl]
            rfl
        obtain ⟨qs, pool2, store2, effs2, hloop, hflat3, hinv3, hcomp3⟩ :=
          ih (fileOffset + cl) (ps ++ [(B.drop fileOffset).take cl])
            (pool ++ [(md5 ((B.drop fileOffset).take cl),
              ⟨md5 (encryptC ((B.drop fileOffset).take cl)), store.length⟩)])
            (store ++ [encryptC ((B.drop fileOffset).take cl)])
            (effs ++ [Eff.encryptChunk, Eff.uploadChunk, Eff.save])
            (by omega) (by omega) hflat2 hinv2 hcompstep
        refine ⟨(B.drop fileOffset).take cl :: qs, pool2, store2, effs2, ?_, ?_, hinv3, ?_⟩
        · conv_lhs => rw [syncLoop]
          rw [if_pos hlt, if_neg hw0, hcl, hactual, hstep, hup]
          simp only [List.length_append, List.length_singleton, List.append_assoc,
            List.singleton_append] at hloop
          exact hloop
        · simpa only [List.append_assoc, List.singleton_append] using hflat3
        · intro p hp
          apply hcomp3
          simpa only [List.append_assoc, List.singleton_append] using hp

/-- With an injective digest, the slots a successful gather fills are exactly
the original chunk plaintexts. -/
theorem slots_eq_of_inj {Hm : Type} [DecidableEq Hm]
    (md5 : List Nat → Hm) (decryptC : List Nat → Option (List Nat))
    (pool : List (Hm × PoolEntry Hm)) (store : Store)
    (hinj : Function.Injective md5) :
    ∀ (qs : List (List Nat)) (slots : List (Option (List Nat))),
      List.Forall₂ (slotSpec md5 decryptC pool store)
        (qs.map (fun p => some (md5 p))) slots →
      (∀ q ∈ qs, (poolFind pool (md5 q)).isSome = true) →
      slots = qs.map some := by
  intro qs
  induction qs with
  | nil =>
    intro slots hrel _
    cases hrel
    rfl
  | cons q rest ih =>
    intro slots hrel hcomp
    rw [List.map_cons] at hrel
    cases hrel with
    | cons hhead htail =>
      obtain ⟨e, he⟩ := Option.isSome_iff_exists.mp (hcomp q (by simp))
      obtain ⟨p, hs, hmd, _⟩ := hhead.2.2 (md5 q) e rfl he
      have hpq : p = q := hinj hmd
      subst hpq
      rw [hs, ih _ htail (fun q2 hq2 => hcomp q2 (by simp [hq2]))]
      rfl

/-- **C1**: round-trip.  Over a remote store modelled as `put`/`get`, with
the AEAD round-trip contract for the per-chunk encryption under the derived
key and the content fingerprint collision-free, uploading any byte sequence
`B` with `syncFileToDust` (fresh manifest, any chunk-size setting ≥ 1 KB)
and then restoring the resulting version with `restoreFileSyncDust` under
the same passphrase yields exactly the bytes `B` — hence a byte stream whose
SHA-256 equals the SHA-256 of `B`. -/
theorem C1_sync_restore_round_trip {Hm S : Type} [DecidableEq Hm] [DecidableEq S]
    (md5 : List Nat → Hm) (sha256 : List Nat → S)
    (encryptC : List Nat → List Nat) (decryptC : List Nat → Option (List Nat))
    (hinj : Function.Injective md5)
    (hrt : ∀ p, decryptC (encryptC p) = some p)
    (B : List Nat) (fileName now : String) (chunkSizeKB : Nat)
    (hKB : 1 ≤ chunkSizeKB) :
    ∃ m store2 effs out warns,
      syncModel md5 sha256 encryptC none B fileName now chunkSizeKB [] =
        some (fileName ++ ".sync.dust", m, store2, effs) ∧
      restoreModel md5 sha256 decryptC m none store2 =
        Except.ok ("restored_v" ++ toString (1 : Nat) ++ "_" ++ fileName, out, warns) ∧
      out = B ∧ sha256 out = sha256 B := by
  have hmin : 1 ≤ chunkSizeKB * 1024 / 2 / 4 := by
    have h1024 : 1024 ≤ chunkSizeKB * 1024 := by
      calc 1024 = 1 * 1024 := by omega
      _ ≤ chunkSizeKB * 1024 := Nat.mul_le_mul_right 1024 hKB
    omega
  have hms : chunkSizeKB * 1024 / 2 / 4 ≤ chunkSizeKB * 1024 := by omega
  obtain ⟨qs, pool2, store2, effs2, hloop, hflatB, hinv2, hcomp2⟩ :=
    syncLoop_sound md5 encryptC
      ⟨chunkSizeKB * 1024 / 2 / 4, chunkSizeKB * 1024 / 2, chunkSizeKB * 1024⟩
      B hmin hms (B.length + 1) 0 [] [] [] [Eff.save, Eff.keyDerive]
      (Nat.zero_le _) (by omega) (by simp)
      (by
        intro ph e hf
        unfold poolFind at hf
        simp at hf)
      (by simp)
  simp only [List.nil_append, List.map_nil, List.length_nil] at hloop hflatB hcomp2
  have hsm : syncModel md5 sha256 encryptC none B fileName now chunkSizeKB [] =
      some (fileName ++ ".sync.dust",
        (⟨fileName, pool2, [⟨1, now, sha256 B, B.length, Status.completed,
          qs.map (fun p => some (md5 p))⟩]⟩ : Manifest Hm S),
        store2, effs2 ++ [Eff.save]) := by
    show syncRun md5 sha256 encryptC (⟨fileName, [], []⟩ : Manifest Hm S) B fileName
      now chunkSizeKB [] = _
    unfold syncRun
    rw [show applyOpenDecision ([] : List (Version Hm S)) (sha256 B) B.length now =
      some ([newVersion 1 now (sha256 B) B.length], 0) from rfl]
    show Option.map (fun r =>
        (fileName ++ ".sync.dust",
          (⟨fileName, r.1,
            setVersionChunksStatus [newVersion 1 now (sha256 B) B.length] 0 r.2.1
              Status.completed⟩ : Manifest Hm S),
          r.2.2.1, r.2.2.2 ++ [Eff.save]))
        (syncLoop md5 encryptC
          ⟨chunkSizeKB * 1024 / 2 / 4, chunkSizeKB * 1024 / 2, chunkSizeKB * 1024⟩
          B (B.length + 1) 0 0 [] [] [] [Eff.save, Eff.keyDerive]) = _
    rw [hloop]
    rfl
  have hfetch : ∀ ph e, some ph ∈ qs.map (fun p => some (md5 p)) →
      poolFind pool2 ph = some e →
      ∃ blob p, storeGet store2 e.url = some blob ∧ decryptC blob = some p ∧
        md5 p = ph := by
    intro ph e _ hfind
    obtain ⟨p, hmd, hget⟩ := hinv2 ph e hfind
    exact ⟨encryptC p, p, hget, hrt p, hmd⟩
  obtain ⟨slots, warns, hs, hrel⟩ :=
    restoreSlots_spec md5 decryptC pool2 store2 (qs.map (fun p => some (md5 p))) 0 hfetch
  have hslots : slots = qs.map some :=
    slots_eq_of_inj md5 decryptC pool2 store2 hinj qs slots hrel hcomp2
  have hout : (slots.filterMap id).flatten = B := by
    rw [hslots, filterMap_id_map_some, hflatB]
  have hrest : restoreModel md5 sha256 decryptC
      (⟨fileName, pool2, [⟨1, now, sha256 B, B.length, Status.completed,
        qs.map (fun p => some (md5 p))⟩]⟩ : Manifest Hm S) none store2 =
      Except.ok ("restored_v" ++ toString (1 : Nat) ++ "_" ++ fileName, B, warns) := by
    simp only [restoreModel, List.getLast?_singleton, hs, hout]
    simp
  exact ⟨_, store2, effs2 ++ [Eff.save], B, warns, hsm, hrest, rfl, rfl⟩

/-- Witness for `C1_sync_restore_round_trip` at a concrete byte sequence,
with the digest and cipher collaborators instantiated by injective /
round-tripping functions. -/
theorem C1_witness :
    ∃ m store2 effs out warns,
      syncModel (fun l : List Nat => l) (fun l : List Nat => l) (fun l => l) none
          [1, 2, 3] "f" "t" 1 [] =
        some ("f" ++ ".sync.dust", m, store2, effs) ∧
      restoreModel (fun l : List Nat => l) (fun l : List Nat => l) (fun b => some b) m
          none store2 =
        Except.ok ("restored_v" ++ toString (1 : Nat) ++ "_" ++ "f", out, warns) ∧
      out = [1, 2, 3] ∧ (fun l : List Nat => l) out = (fun l : List Nat => l) [1, 2, 3] :=
  C1_sync_restore_round_trip (fun l => l) (fun l => l) (fun l => l) (fun b => some b)
    (fun _ _ h => h) (fun _ => rfl) [1, 2, 3] "f" "t" 1 (by decide)
